import Mathlib

/-!
Shallow embedding of `pyverilog/utils/scope.py` (classes `ScopeLabel`,
`_ScopeTreeNode`, `_ScopeTree`, `ScopeChain`) and proofs about it.

Modelling conventions:
* Python strings are Lean `String`s; `len`/slicing on them is character based,
  matching Python's character-based `len` and slicing.
* A `_ScopeTreeNode` is determined by its label together with the labels of all
  of its ancestors up to the top of the backing tree, so a node (or `None`) is
  modelled as a `List ScopeLabel`, leaf label first; `None` is `[]` and
  `node.parent` is `List.tail`.  Two distinct nodes lying on one parent chain
  always have distinct depths, hence distinct lists, so on a parent chain
  (which is where the source compares `id`s) Python object identity coincides
  with structural equality of these lists.  The stored `_ScopeTreeNode._len` is
  the list length.
* Python exceptions are modelled by `Except PyErr`; an `assert` that fails
  raises `PyErr.AssertionFail`.
* `hash` of a Python string is modelled injectively by the string itself
  (`pyStrHash`), and `hash((name, loop))` by the pair itself (`pyLabelHash`):
  equal arguments give equal model hashes, exactly the guarantee Python gives.
-/

/-- Error classes raised by the code.  `DefinitionError` is the class named in
`raise DefinitionError(...)` / `raise verror.DefinitionError(...)`; the spec's
error taxonomy calls this class ValidationError (the `verror` module itself is
not part of the sources, only the raise sites are). `AssertionFail` models a
failing Python `assert`. -/
inductive PyErr where
  | DefinitionError
  | IndexError
  | KeyError
  | TypeError
  | ValueError
  | AssertionFail
deriving DecidableEq, Repr

/-- `scopetype_list_unprint` from scope.py. -/
def scopetype_list_unprint : List String :=
  ["generate", "always", "function", "task", "taskcall", "initial", "for", "while", "if"]

/-- `scopetype_list_print` from scope.py. -/
def scopetype_list_print : List String :=
  ["module", "block", "signal", "functioncall"]

/-- `scopetype_list` from scope.py. -/
def scopetype_list : List String :=
  scopetype_list_unprint ++ scopetype_list_print ++ ["any"]

/-- The `ScopeLabel` value: fields as assigned by `ScopeLabel.__init__`.
The loop index is modelled as an optional integer (the uses in the sources
and the spec's examples are integers). -/
structure ScopeLabel where
  scopename : String
  scopetype : String
  scopeloop : Option Int
deriving DecidableEq

/-- `ScopeLabel.__init__`: stores the fields but raises `DefinitionError`
(`'No such Scope type'`) when the scope type is not in `scopetype_list`. -/
def ScopeLabel.make (scopename scopetype : String) (scopeloop : Option Int) :
    Except PyErr ScopeLabel :=
  if scopetype ∈ scopetype_list then
    .ok ⟨scopename, scopetype, scopeloop⟩
  else
    .error .DefinitionError

/-- `ScopeLabel.__repr__`: `name` followed by `[loop]` when a loop index is
present. -/
def ScopeLabel.repr (a : ScopeLabel) : String :=
  match a.scopeloop with
  | none => a.scopename
  | some i => a.scopename ++ "[" ++ toString i ++ "]"

/-- `ScopeLabel.tocode`: empty for unprintable scope types, else the name. -/
def ScopeLabel.tocode (a : ScopeLabel) : String :=
  if a.scopetype ∈ scopetype_list_unprint then "" else a.scopename

/-- `ScopeLabel.__eq__` (the `type(self) != type(other)` guard is discharged by
Lean's typing): wildcard `'any'` on either side compares `(name, loop)` only,
otherwise the full `(name, type, loop)` triple is compared. -/
def ScopeLabel.beq (a b : ScopeLabel) : Bool :=
  if a.scopetype == "any" || b.scopetype == "any" then
    a.scopename == b.scopename && a.scopeloop == b.scopeloop
  else
    a.scopename == b.scopename && a.scopetype == b.scopetype && a.scopeloop == b.scopeloop

/-- `ScopeLabel.__hash__`: `hash((self.scopename, self.scopeloop))`, modelled
injectively by the tuple itself. -/
def ScopeLabel.pyhash (a : ScopeLabel) : String × Option Int :=
  (a.scopename, a.scopeloop)

/-- `hash` of a Python string, modelled injectively by the string itself. -/
def pyStrHash (s : String) : String := s

/-- `_ScopeTreeNode.__eq__`: `False` on unequal `_len` (= list length), else
label equality (`ScopeLabel.beq`) of the values plus equality of the parents.
`nodeEq [] []` is Python's `None == None`. -/
def nodeEq : List ScopeLabel → List ScopeLabel → Bool
  | [], [] => true
  | v1 :: p1, v2 :: p2 =>
    if (v1 :: p1).length = (v2 :: p2).length then
      ScopeLabel.beq v1 v2 && nodeEq p1 p2
    else false
  | _, _ => false

/-- `_ScopeTree`: the window into the backing tree.  `root = []` / `curr = []`
model `None`.  `_hash` stores `hash(_str)` (see `pyStrHash`). -/
structure ScopeTree where
  root : List ScopeLabel
  curr : List ScopeLabel
  _len : Nat
  _str : String
  _hash : String
deriving DecidableEq

/-- `_ScopeTree.__init__` with no argument (the copying constructor and
`copy()` reproduce the same field values and need no separate model). -/
def ScopeTree.empty : ScopeTree :=
  { root := [], curr := [], _len := 0, _str := "", _hash := pyStrHash "" }

/-- Loop body of `_ScopeTree.__iter__`: collect values walking from `curr`
upward, stopping at the node that is `root` (`id` comparison; see the node
modelling convention).  An empty `node` with the stop never reached models the
`curr is None` loop exit when `root` is also `None`. -/
def collectToRoot (root : List ScopeLabel) : List ScopeLabel → List ScopeLabel
  | [] => []
  | v :: p => if v :: p = root then [] else v :: collectToRoot root p

/-- `_ScopeTree.__iter__`: labels in root-to-leaf order (`reversed(nodes)`
after collecting leaf-first and appending `root.value` when `root` is not
`None`). -/
def ScopeTree.labels (t : ScopeTree) : List ScopeLabel :=
  (collectToRoot t.root t.curr ++ t.root.take 1).reverse

/-- `_ScopeTree.__eq__`: `False` when `self.root != other.root` (node equality
including below-window ancestry) or `self._len != other._len`, else comparison
of the memoized strings. -/
def ScopeTree.beq (a b : ScopeTree) : Bool :=
  if nodeEq a.root b.root = false ∨ a._len ≠ b._len then false
  else a._str == b._str

/-- The public `ScopeChain`: a wrapper around a `_ScopeTree`. -/
structure ScopeChain where
  scopetree : ScopeTree
deriving DecidableEq

/-- The canonical empty chain `ScopeChain()`. -/
def ScopeChain.empty : ScopeChain := ⟨ScopeTree.empty⟩

/-- First loop of the slice branch of `_ScopeTree.__getitem__`: walk the given
number of steps up from `curr`; each step first raises `IndexError` when the
node is `None` or is the window root. -/
def walkUpSlice (root : List ScopeLabel) : Nat → List ScopeLabel → Except PyErr (List ScopeLabel)
  | 0, node => .ok node
  | _ + 1, [] => .error .IndexError
  | n + 1, v :: p =>
    if v :: p = root then .error .IndexError
    else walkUpSlice root n p

/-- Second loop of the slice branch of `_ScopeTree.__getitem__`: walk the given
number of steps up from the new leaf, prepending `"." ++ repr(value)` for each
node passed, then prepend the final node's `repr`.  A `None` node raises
`IndexError` inside the loop; dereferencing `None` after the loop (only
reachable when the window root does not lie on the leaf's chain) is modelled as
`IndexError` as well. -/
def walkBuildStr (root : List ScopeLabel) :
    Nat → List ScopeLabel → String → Except PyErr (List ScopeLabel × String)
  | 0, [], _ => .error .IndexError
  | 0, v :: p, acc => .ok (v :: p, ScopeLabel.repr v ++ acc)
  | _ + 1, [], _ => .error .IndexError
  | n + 1, v :: p, acc =>
    if v :: p = root then .error .IndexError
    else walkBuildStr root n p ("." ++ ScopeLabel.repr v ++ acc)

/-- Endpoint clamping of CPython's `slice.indices`: a negative endpoint is
shifted by the length and floored at `lower`, a nonnegative one is capped at
`upper`. -/
def clampIndex (v lower upper : Int) (length : Nat) : Int :=
  if v < 0 then max (v + length) lower else min v upper

/-- CPython's `slice.indices(length)`, called by `_ScopeTree.__getitem__` as
`key.indices(len(self))`: a missing step defaults to 1, a zero step raises
`ValueError` (`'slice step cannot be zero'`), missing endpoints default to the
extremes for the step's direction, and given endpoints are clamped into
range.  Returns the normalized `(start, stop, step)` triple. -/
def sliceIndices (start stop step : Option Int) (length : Nat) : Except PyErr (Int × Int × Int) :=
  let st : Int := step.getD 1
  if st = 0 then .error .ValueError
  else
    let lower : Int := if st < 0 then -1 else 0
    let upper : Int := if st < 0 then (length : Int) - 1 else (length : Int)
    let lo : Int := match start with
      | none => if st < 0 then upper else lower
      | some v => clampIndex v lower upper length
    let hi : Int := match stop with
      | none => if st < 0 then lower else upper
      | some v => clampIndex v lower upper length
    .ok (lo, hi, st)

/-- Body of the slice branch of `_ScopeTree.__getitem__` after the
`key.indices(len(self))` call, on the normalized `(low, high, step)` triple
(the `len(indices) != 3` check is dead code: `indices` always returns a
3-tuple).  A step other than `1` raises `KeyError`; `high == low` returns the
canonical empty chain; otherwise a new window over the existing nodes is
built, with the string rebuilt by the second loop. -/
def ScopeTree.getSlicePost (t : ScopeTree) (low high step : Int) : Except PyErr ScopeChain :=
  if step ≠ 1 then .error .KeyError
  else if high = low then .ok ScopeChain.empty
  else
    match walkUpSlice t.root ((t._len : Int) - high).toNat t.curr with
    | .error e => .error e
    | .ok new_curr =>
      match walkBuildStr t.root (high - low - 1).toNat new_curr "" with
      | .error e => .error e
      | .ok (new_root, new_str) =>
        .ok ⟨{ root := new_root, curr := new_curr, _len := (high - low).toNat,
               _str := new_str, _hash := pyStrHash new_str }⟩

/-- Slice branch of `_ScopeTree.__getitem__` on a slice key with optional
start, stop and step: first `key.indices(len(self))` (which can raise
`ValueError`), then the body on the normalized triple. -/
def ScopeTree.getSlice (t : ScopeTree) (start stop step : Option Int) : Except PyErr ScopeChain :=
  match sliceIndices start stop step t._len with
  | .error e => .error e
  | .ok (low, high, st) => t.getSlicePost low high st

/-- Walk of the integer branch of `_ScopeTree.__getitem__`: step up the given
number of times (raising `IndexError` on `None` or on the window root), then
return the node's value (dereferencing `None` there, only reachable when the
root does not lie on the chain, is modelled as `IndexError`). -/
def walkIndex (root : List ScopeLabel) : Nat → List ScopeLabel → Except PyErr ScopeLabel
  | 0, [] => .error .IndexError
  | 0, v :: _ => .ok v
  | _ + 1, [] => .error .IndexError
  | n + 1, v :: p =>
    if v :: p = root then .error .IndexError
    else walkIndex root n p

/-- Integer branch of `_ScopeTree.__getitem__`: bounds check against
`[-len, len)`, negative indices counted from the end, then a walk of
`len - key - 1` steps from the leaf. -/
def ScopeTree.getIndex (t : ScopeTree) (key : Int) : Except PyErr ScopeLabel :=
  if key < -(t._len : Int) ∨ (t._len : Int) ≤ key then .error .IndexError
  else
    let k : Int := if key < 0 then (t._len : Int) + key else key
    walkIndex t.root ((t._len : Int) - k - 1).toNat t.curr

/-- Python `s[:-n]` for `n ≥ 1` (character based). -/
def strDropRight (s : String) (n : Nat) : String :=
  ⟨s.data.take (s.data.length - n)⟩

/-- `_ScopeTree._new_pop`: asserts the leaf is not the root, moves the leaf to
its parent, decrements the length, truncates the memoized string by
`len(repr(leaf.value)) + 1` characters, rehashes, and asserts the new string is
nonempty. -/
def ScopeTree.newPop (t : ScopeTree) : Except PyErr ScopeTree :=
  match t.curr with
  | [] => .error .AssertionFail
  | v :: p =>
    if v :: p = t.root then .error .AssertionFail
    else
      let s := strDropRight t._str ((ScopeLabel.repr v).length + 1)
      if s = "" then .error .AssertionFail
      else .ok { root := t.root, curr := p, _len := t._len - 1, _str := s, _hash := pyStrHash s }

/-- `_ScopeTree.append`: a new node whose parent is the leaf; when the tree was
empty the node becomes root and leaf and the string is `repr(label)`, otherwise
the code asserts the memoized string is nonempty and appends
`"." ++ repr(label)`.  `_hash` is recomputed only when `rehash` is set. -/
def ScopeTree.append (t : ScopeTree) (label : ScopeLabel) (rehash : Bool) :
    Except PyErr ScopeTree :=
  match t.curr with
  | [] =>
    let s := ScopeLabel.repr label
    .ok { root := [label], curr := [label], _len := t._len + 1, _str := s,
          _hash := if rehash then pyStrHash s else t._hash }
  | v :: p =>
    if t._str = "" then .error .AssertionFail
    else
      let s := t._str ++ "." ++ ScopeLabel.repr label
      .ok { root := t.root, curr := label :: v :: p, _len := t._len + 1, _str := s,
            _hash := if rehash then pyStrHash s else t._hash }

/-- `_ScopeTree.extend`: append every label of the argument chain (iteration
over a chain yields its labels root-to-leaf) without rehashing, then recompute
the hash once. -/
def ScopeTree.extendLabels (t : ScopeTree) (ls : List ScopeLabel) : Except PyErr ScopeTree :=
  match ls.foldlM (fun acc l => ScopeTree.append acc l false) t with
  | .error e => .error e
  | .ok t' => .ok { t' with _hash := pyStrHash t'._str }

/-- The possible arguments of `ScopeChain.__init__`: `None`, another chain, a
`_ScopeTree`, a list of labels, or anything else. -/
inductive InitArg where
  | nothing
  | chain (c : ScopeChain)
  | tree (t : ScopeTree)
  | list (ls : List ScopeLabel)
  | other

/-- `ScopeChain.__init__`: empty tree for `None`, a field copy of the tree for
chain/tree arguments, one `append` (with rehash) per label for a list argument,
and `TypeError` otherwise. -/
def ScopeChain.init : InitArg → Except PyErr ScopeChain
  | .nothing => .ok ⟨ScopeTree.empty⟩
  | .chain c => .ok ⟨c.scopetree⟩
  | .tree t => .ok ⟨t⟩
  | .list ls =>
    match ls.foldlM (fun acc l => ScopeTree.append acc l true) ScopeTree.empty with
    | .error e => .error e
    | .ok t => .ok ⟨t⟩
  | .other => .error .TypeError

/-- `ScopeChain([...])`, the list constructor. -/
def ScopeChain.ofList (ls : List ScopeLabel) : Except PyErr ScopeChain :=
  ScopeChain.init (.list ls)

/-- The labels of a chain in root-to-leaf order (`ScopeChain.__iter__`). -/
def ScopeChain.labels (c : ScopeChain) : List ScopeLabel :=
  c.scopetree.labels

/-- The possible right operands of `ScopeChain.__add__`: a label, a chain, or
anything else. -/
inductive AddArg where
  | label (l : ScopeLabel)
  | chain (c : ScopeChain)
  | other

/-- `ScopeChain.__add__`: copies the left chain (`ScopeChain(self)`), appends a
label operand or extends by a chain operand, and raises
`verror.DefinitionError` for any other operand. -/
def ScopeChain.add (c : ScopeChain) (r : AddArg) : Except PyErr ScopeChain :=
  match r with
  | .label l =>
    match c.scopetree.append l true with
    | .error e => .error e
    | .ok t => .ok ⟨t⟩
  | .chain d =>
    match c.scopetree.extendLabels d.scopetree.labels with
    | .error e => .error e
    | .ok t => .ok ⟨t⟩
  | .other => .error .DefinitionError

/-- `ScopeChain.__eq__` (the type guard is discharged by Lean's typing):
delegates to `_ScopeTree.__eq__`. -/
def ScopeChain.beq (a b : ScopeChain) : Bool :=
  ScopeTree.beq a.scopetree b.scopetree

/-- `ScopeChain.__hash__`: the memoized tree hash. -/
def ScopeChain.pyhash (c : ScopeChain) : String :=
  c.scopetree._hash

/-- `ScopeChain.tocode`: per label in root-to-leaf order append its `tocode`
when nonempty, then any pending loop token, then a `'_'` separator when the
label's `tocode` was nonempty; a `for` label with a loop index seeds the
pending token `"_" ++ str(loop) ++ "_"` for the next iteration; finally the
last list element is dropped and the pieces are joined. -/
def ScopeChain.tocode (c : ScopeChain) : String :=
  let step : List String × Option String → ScopeLabel → List String × Option String :=
    fun acc scope =>
      let l := ScopeLabel.tocode scope
      let ret := acc.1
      let ret := if l ≠ "" then ret ++ [l] else ret
      let ret := match acc.2 with
        | some s => ret ++ [s]
        | none => ret
      let ret := if l ≠ "" then ret ++ ["_"] else ret
      let it := if scope.scopetype = "for" then
          match scope.scopeloop with
          | some v => some ("_" ++ toString v ++ "_")
          | none => none
        else none
      (ret, it)
  let out := c.scopetree.labels.foldl step ([], none)
  String.join out.1.dropLast

/-- `ScopeChain.get_module_list`: the labels whose scope type is `'module'`. -/
def ScopeChain.get_module_list (c : ScopeChain) : List ScopeLabel :=
  c.scopetree.labels.filter (fun scope => scope.scopetype = "module")

/-- Loop of `ScopeChain.less_qual_iter`, with fuel (the loop pops one node per
iteration, so `curr.length + 1` fuel always suffices on well-formed windows):
while the leaf is not the root (`id` comparison), yield the current tree and
pop. -/
def lessQualLoop : Nat → ScopeTree → Except PyErr (List ScopeChain × ScopeTree)
  | 0, t => .ok ([], t)
  | n + 1, t =>
    if t.curr = t.root then .ok ([], t)
    else
      match t.newPop with
      | .error e => .error e
      | .ok t' =>
        match lessQualLoop n t' with
        | .error e => .error e
        | .ok (rest, last) => .ok (ScopeChain.mk t :: rest, last)

/-- `ScopeChain.less_qual_iter`, collected into a list: works on a copy of the
tree, yields while the leaf is not the root, asserts the remaining tree has
length 1, yields it, and finally yields the canonical empty chain. -/
def ScopeChain.less_qual_iter (c : ScopeChain) : Except PyErr (List ScopeChain) :=
  match lessQualLoop (c.scopetree.curr.length + 1) c.scopetree with
  | .error e => .error e
  | .ok (pre, t) =>
    if t._len = 1 then .ok (pre ++ [ScopeChain.mk t, ScopeChain.empty])
    else .error .AssertionFail

/-! Specification-side definitions used to state and prove the claims. -/

/-- Dot-joined concatenation of strings, the mathematical description of the
memoized `_str` field (`"a.b.c"`). -/
def dotJoin : List String → String
  | [] => ""
  | [s] => s
  | s :: r :: l => s ++ "." ++ dotJoin (r :: l)

/-- The canonical string of a label sequence: the labels' `repr`s joined with
periods. -/
def strJoin (ls : List ScopeLabel) : String :=
  dotJoin (ls.map ScopeLabel.repr)

/-- Characterization of a nonempty reachable `_ScopeTree` window: the root node
is `rv` with below-window ancestry `rp`, the leaf chain extends it by `pre`
(leaf first), the length counts the window nodes, and the memoized string and
hash are the canonical ones for the window's label sequence. -/
def ScopeTree.IsState (t : ScopeTree) (rv : ScopeLabel) (rp pre : List ScopeLabel) : Prop :=
  t.root = rv :: rp ∧ t.curr = pre ++ rv :: rp ∧ t._len = pre.length + 1 ∧
    t._str = strJoin (rv :: pre.reverse) ∧ t._hash = pyStrHash t._str

/-- Invariant of every API-reachable `_ScopeTree`: either the empty window or a
nonempty well-formed window. -/
def ScopeTree.Inv (t : ScopeTree) : Prop :=
  t = ScopeTree.empty ∨ ∃ rv rp pre, t.IsState rv rp pre

/-- Pairwise structural equality of label sequences under the `ScopeLabel`
equality rule (`ScopeLabel.beq`). -/
def labelSeqEq : List ScopeLabel → List ScopeLabel → Bool
  | [], [] => true
  | a :: as, b :: bs => ScopeLabel.beq a b && labelSeqEq as bs
  | _, _ => false

/-- Pairwise agreement of two label sequences on name and loop index only
(scope types may differ). -/
def nameLoopEq : List ScopeLabel → List ScopeLabel → Bool
  | [], [] => true
  | a :: as, b :: bs =>
    (a.scopename == b.scopename && a.scopeloop == b.scopeloop) && nameLoopEq as bs
  | _, _ => false

/-- The condition under which re-appending a label sequence one by one cannot
trip the `assert self._str != ""` in `_ScopeTree.append`: when at least two
labels follow, the first label's `repr` is nonempty. -/
def FirstOk : List ScopeLabel → Bool
  | [] => true
  | [_] => true
  | l :: _ :: _ => !(ScopeLabel.repr l == "")

/-- Decidable equality for `Except` results, used to evaluate the concrete
counterexamples. -/
instance exceptDecEq {e a : Type} [DecidableEq e] [DecidableEq a] : DecidableEq (Except e a) :=
  fun x y =>
    match x, y with
    | .ok u, .ok v => if h : u = v then isTrue (by rw [h]) else isFalse (by simp [h])
    | .error u, .error v => if h : u = v then isTrue (by rw [h]) else isFalse (by simp [h])
    | .ok _, .error _ => isFalse (by simp)
    | .error _, .ok _ => isFalse (by simp)

/-- Extract the chain of a successful result (used only to name concrete
counterexample values; every use is accompanied by a proof that the
computation did succeed). -/
def exChain (e : Except PyErr ScopeChain) : ScopeChain :=
  match e with
  | .ok c => c
  | .error _ => ScopeChain.empty

/-- Default label used with `List.getD` in statements. -/
def anyLabel : ScopeLabel := ⟨"", "any", none⟩

/-- Concrete labels for the counterexamples. -/
def cxA : ScopeLabel := ⟨"a", "module", none⟩

def cxB : ScopeLabel := ⟨"b", "module", none⟩

def cxC : ScopeLabel := ⟨"c", "module", none⟩

/-- The chain `ScopeChain([a, b, c])`. -/
def cxFull : ScopeChain := exChain (ScopeChain.ofList [cxA, cxB, cxC])

/-- The slice `ScopeChain([a, b, c])[1:3]`: labels `[b, c]`, window root the
backing node `b` whose parent is the backing node `a`. -/
def cxSlice : ScopeChain := exChain (cxFull.scopetree.getSlice (some 1) (some 3) none)

/-- The chain `ScopeChain([b, c])` built directly: labels `[b, c]`, window
root a backing node `b` with no parent. -/
def cxFresh : ScopeChain := exChain (ScopeChain.ofList [cxB, cxC])

/-- The result of `ScopeChain() + cxSlice`. -/
def cxLeftId : ScopeChain := exChain (ScopeChain.add ScopeChain.empty (.chain cxSlice))

/-- The chain `ScopeChain([ScopeLabel('L', 'for', 3), ScopeLabel('body', 'block')])`. -/
def cxForBody : ScopeChain :=
  exChain (ScopeChain.ofList [⟨"L", "for", some 3⟩, ⟨"body", "block", none⟩])

/-- The chain `ScopeChain([ScopeLabel('', 'module')])`: a single label whose
`repr` is empty, so the memoized string is `""`. -/
def cxEmptyName : ScopeChain := exChain (ScopeChain.ofList [⟨"", "module", none⟩])

/-- The chain `ScopeChain([ScopeLabel('m', 'module'), ScopeLabel('x', 'block')])`. -/
def cxW1 : ScopeChain :=
  exChain (ScopeChain.ofList [⟨"m", "module", none⟩, ⟨"x", "block", none⟩])

/-- The chain `ScopeChain([ScopeLabel('m', 'module'), ScopeLabel('x', 'signal')])`:
second label kind differs from `cxW1`. -/
def cxW2 : ScopeChain :=
  exChain (ScopeChain.ofList [⟨"m", "module", none⟩, ⟨"x", "signal", none⟩])

/-! Basic lemmas about labels, node equality and the canonical string. -/

theorem labelBeq_refl (a : ScopeLabel) : ScopeLabel.beq a a = true := by
  unfold ScopeLabel.beq
  by_cases h : a.scopetype == "any" <;> simp [h]

theorem labelBeq_repr_eq {a b : ScopeLabel} (h : ScopeLabel.beq a b = true) :
    ScopeLabel.repr a = ScopeLabel.repr b := by
  unfold ScopeLabel.beq at h
  have hn : a.scopename = b.scopename ∧ a.scopeloop = b.scopeloop := by
    by_cases hc : (a.scopetype == "any" || b.scopetype == "any") = true
    · rw [if_pos hc] at h
      simp only [Bool.and_eq_true, beq_iff_eq] at h
      exact h
    · rw [if_neg hc] at h
      simp only [Bool.and_eq_true, beq_iff_eq] at h
      exact ⟨h.1.1, h.2⟩
  unfold ScopeLabel.repr
  rw [hn.1, hn.2]

theorem labelBeq_of_eq_fields {a b : ScopeLabel} (h1 : a.scopename = b.scopename)
    (h2 : a.scopetype = b.scopetype) (h3 : a.scopeloop = b.scopeloop) :
    ScopeLabel.beq a b = true := by
  cases a; cases b
  simp only at h1 h2 h3
  subst h1; subst h2; subst h3
  exact labelBeq_refl _

theorem nodeEq_refl (l : List ScopeLabel) : nodeEq l l = true := by
  induction l with
  | nil => rfl
  | cons v p ih => simp [nodeEq, labelBeq_refl, ih]

theorem beq_of_fields {t1 t2 : ScopeTree} (hr : t1.root = t2.root)
    (hl : t1._len = t2._len) (hs : t1._str = t2._str) :
    ScopeTree.beq t1 t2 = true := by
  unfold ScopeTree.beq
  rw [hr, hl, hs]
  simp [nodeEq_refl]

theorem dotJoin_cons_cons (a b : String) (l : List String) :
    dotJoin (a :: b :: l) = a ++ "." ++ dotJoin (b :: l) := rfl

theorem str_append_ne_empty (a b : String) : a ++ "." ++ b ≠ "" := by
  intro h
  have hl := congrArg String.length h
  rw [String.length_append, String.length_append] at hl
  have h1 : String.length "." = 1 := rfl
  have h2 : String.length "" = 0 := rfl
  rw [h1, h2] at hl
  omega

theorem dotJoin_append_last (a : String) (ys : List String) (x : String) :
    dotJoin ((a :: ys) ++ [x]) = dotJoin (a :: ys) ++ "." ++ x := by
  induction ys generalizing a with
  | nil => rfl
  | cons b ys ih =>
    have h1 : dotJoin ((a :: b :: ys) ++ [x]) = a ++ "." ++ dotJoin ((b :: ys) ++ [x]) := rfl
    rw [h1, ih b, dotJoin_cons_cons]
    simp only [String.append_assoc]

theorem strJoin_append_last (a : ScopeLabel) (ys : List ScopeLabel) (x : ScopeLabel) :
    strJoin ((a :: ys) ++ [x]) = strJoin (a :: ys) ++ "." ++ ScopeLabel.repr x := by
  unfold strJoin
  rw [List.map_append]
  exact dotJoin_append_last _ _ _

theorem dotJoin_two_ne_empty (a b : String) (l : List String) :
    dotJoin (a :: b :: l) ≠ "" := by
  rw [dotJoin_cons_cons]
  exact str_append_ne_empty _ _

theorem strJoin_cons_ne_empty (a : ScopeLabel) (ys : List ScopeLabel) (hy : ys ≠ []) :
    strJoin (a :: ys) ≠ "" := by
  match ys with
  | [] => exact absurd rfl hy
  | b :: l => exact dotJoin_two_ne_empty _ _ _

theorem strDropRight_append (a r : String) :
    strDropRight (a ++ "." ++ r) (r.length + 1) = a := by
  unfold strDropRight
  have hdata : (a ++ "." ++ r).data = a.data ++ ('.' :: r.data) := by
    rw [String.data_append, String.data_append, List.append_assoc]
    rfl
  rw [hdata]
  have hrlen : r.length = r.data.length := rfl
  have hlen : (a.data ++ ('.' :: r.data)).length - (r.length + 1) = a.data.length := by
    rw [List.length_append, List.length_cons, hrlen]
    omega
  rw [hlen, List.take_left]

/-! Lemmas about the window characterization and the mutating operations. -/

theorem ne_of_length_ne {l1 l2 : List ScopeLabel} (h : l1.length ≠ l2.length) : l1 ≠ l2 := by
  intro he
  exact h (congrArg List.length he)

theorem collect_append (rv : ScopeLabel) (rp pre : List ScopeLabel) :
    collectToRoot (rv :: rp) (pre ++ rv :: rp) = pre := by
  induction pre with
  | nil => simp [collectToRoot]
  | cons x pre ih =>
    have hne : x :: (pre ++ rv :: rp) ≠ rv :: rp := by
      apply ne_of_length_ne
      simp [List.length_append]
      omega
    show collectToRoot (rv :: rp) (x :: (pre ++ rv :: rp)) = x :: pre
    unfold collectToRoot
    rw [if_neg hne, ih]

theorem labels_of_state {t : ScopeTree} {rv : ScopeLabel} {rp pre : List ScopeLabel}
    (h : t.IsState rv rp pre) : t.labels = rv :: pre.reverse := by
  obtain ⟨hroot, hcurr, -, -, -⟩ := h
  unfold ScopeTree.labels
  rw [hroot, hcurr, collect_append]
  simp

theorem labels_empty : ScopeTree.empty.labels = [] := rfl

/-- `append` on a tree with a nonempty leaf chain. -/
theorem append_cons {t : ScopeTree} {v : ScopeLabel} {p : List ScopeLabel}
    (hcurr : t.curr = v :: p) (hs : t._str ≠ "") (l : ScopeLabel) (rh : Bool) :
    t.append l rh = .ok
      { root := t.root, curr := l :: v :: p, _len := t._len + 1,
        _str := t._str ++ "." ++ ScopeLabel.repr l,
        _hash := if rh then pyStrHash (t._str ++ "." ++ ScopeLabel.repr l) else t._hash } := by
  unfold ScopeTree.append
  rw [hcurr]
  simp [hs]

/-- `append` on a tree with an empty leaf chain. -/
theorem append_nil {t : ScopeTree} (hcurr : t.curr = []) (l : ScopeLabel) (rh : Bool) :
    t.append l rh = .ok
      { root := [l], curr := [l], _len := t._len + 1,
        _str := ScopeLabel.repr l,
        _hash := if rh then pyStrHash (ScopeLabel.repr l) else t._hash } := by
  unfold ScopeTree.append
  rw [hcurr]

theorem state_str_shape {rv : ScopeLabel} {pre : List ScopeLabel} (x : ScopeLabel) :
    strJoin (rv :: (x :: pre).reverse) = strJoin (rv :: pre.reverse) ++ "." ++ ScopeLabel.repr x := by
  rw [List.reverse_cons]
  have : rv :: (pre.reverse ++ [x]) = (rv :: pre.reverse) ++ [x] := rfl
  rw [this, strJoin_append_last]

/-- A successful `append` on a window with the shape of a characterized
nonempty window extends the leaf chain (no assumption on the stored hash). -/
theorem append_state {t : ScopeTree} {rv : ScopeLabel} {rp pre : List ScopeLabel}
    (hroot : t.root = rv :: rp) (hcurr : t.curr = pre ++ rv :: rp)
    (hlen : t._len = pre.length + 1) (hstr : t._str = strJoin (rv :: pre.reverse))
    (hs : t._str ≠ "") (l : ScopeLabel) (rh : Bool) :
    ∃ t', t.append l rh = .ok t' ∧
      t'.root = rv :: rp ∧ t'.curr = (l :: pre) ++ rv :: rp ∧ t'._len = (l :: pre).length + 1 ∧
      t'._str = strJoin (rv :: (l :: pre).reverse) ∧
      t'._hash = (if rh then pyStrHash t'._str else t._hash) := by
  have hne : ∃ v p, t.curr = v :: p := by
    cases hc : pre ++ rv :: rp with
    | nil => exact absurd hc (by simp)
    | cons v p => exact ⟨v, p, hcurr.trans hc⟩
  obtain ⟨v, p, hcurr'⟩ := hne
  refine ⟨_, append_cons hcurr' hs l rh, hroot, ?_, ?_, ?_, rfl⟩
  · show l :: v :: p = (l :: pre) ++ rv :: rp
    rw [List.cons_append, ← hcurr, hcurr']
  · show t._len + 1 = (l :: pre).length + 1
    rw [hlen]
    rfl
  · show t._str ++ "." ++ ScopeLabel.repr l = strJoin (rv :: (l :: pre).reverse)
    rw [hstr, state_str_shape]

/-- A window whose `_str` is the canonical string of a nonempty label sequence
has nonempty `_str` as soon as its leaf chain is nonempty or the root label's
`repr` is nonempty. -/
theorem state_str_ne_empty {t : ScopeTree} {rv : ScopeLabel} {pre : List ScopeLabel}
    (hstr : t._str = strJoin (rv :: pre.reverse))
    (hc : ScopeLabel.repr rv ≠ "" ∨ pre ≠ []) :
    t._str ≠ "" := by
  rw [hstr]
  rcases hc with hc | hc
  · match hp : pre.reverse with
    | [] =>
      show strJoin [rv] ≠ ""
      exact hc
    | y :: l => exact strJoin_cons_ne_empty _ _ (by simp)
  · have : pre.reverse ≠ [] := by simpa using hc
    exact strJoin_cons_ne_empty _ _ this

/-- Folding `append` over a label list from a shaped window: the shape fields
evolve canonically, and the hash field is rehashed exactly when `rh` is set
and at least one label was appended. -/
theorem fold_state {ls : List ScopeLabel} {t : ScopeTree} {rv : ScopeLabel}
    {rp pre : List ScopeLabel} (rh : Bool)
    (hroot : t.root = rv :: rp) (hcurr : t.curr = pre ++ rv :: rp)
    (hlen : t._len = pre.length + 1) (hstr : t._str = strJoin (rv :: pre.reverse))
    (hs : t._str ≠ "" ∨ ls = []) :
    ∃ t', List.foldlM (fun acc l => ScopeTree.append acc l rh) t ls = .ok t' ∧
      t'.root = rv :: rp ∧ t'.curr = (ls.reverse ++ pre) ++ rv :: rp ∧
      t'._len = (ls.reverse ++ pre).length + 1 ∧
      t'._str = strJoin (rv :: (ls.reverse ++ pre).reverse) ∧
      t'._hash = (if ls = [] then t._hash else if rh then pyStrHash t'._str else t._hash) := by
  induction ls generalizing t pre with
  | nil =>
    refine ⟨t, rfl, hroot, by simpa using hcurr, by simpa using hlen, by simpa using hstr, ?_⟩
    simp
  | cons l ls ih =>
    have hs' : t._str ≠ "" := hs.resolve_right (by simp)
    obtain ⟨t1, heq1, h1, h2, h3, h4, h5⟩ := append_state hroot hcurr hlen hstr hs' l rh
    have hns : t1._str ≠ "" ∨ ls = [] :=
      Or.inl (state_str_ne_empty h4 (Or.inr (by simp)))
    obtain ⟨t', heq', g1, g2, g3, g4, g5⟩ := ih h1 h2 h3 h4 hns
    have hshape : ls.reverse ++ l :: pre = (l :: ls).reverse ++ pre := by simp
    refine ⟨t', ?_, g1, by rw [← hshape]; exact g2, by rw [← hshape]; exact g3,
      by rw [← hshape]; exact g4, ?_⟩
    · rw [List.foldlM_cons, heq1]
      exact heq'
    · simp only [List.cons_ne_nil, if_neg, reduceIte]
      cases hls : ls with
      | nil =>
        rw [hls] at g5 heq'
        simp only [if_pos] at g5
        have ht1 : t1 = t' := by
          rw [List.foldlM_nil] at heq'
          exact (Except.ok.injEq _ _).mp heq'
        rw [g5, ← ht1, h5]
      | cons a as =>
        rw [hls] at g5
        simp only [List.cons_ne_nil, if_neg, reduceIte] at g5
        cases rh with
        | true => simpa using g5
        | false =>
          simp only [Bool.false_eq_true, if_neg, reduceIte] at g5 ⊢
          rw [g5, h5]
          simp

/-- Characterization of a successful `append` fold from the shape of the
start window alone: success forces every intermediate assert to have passed. -/
theorem fold_char {ls : List ScopeLabel} {t t' : ScopeTree} {rv : ScopeLabel}
    {rp pre : List ScopeLabel} {rh : Bool}
    (hroot : t.root = rv :: rp) (hcurr : t.curr = pre ++ rv :: rp)
    (hlen : t._len = pre.length + 1) (hstr : t._str = strJoin (rv :: pre.reverse))
    (heq : List.foldlM (fun acc l => ScopeTree.append acc l rh) t ls = .ok t') :
    t'.root = rv :: rp ∧ t'.curr = (ls.reverse ++ pre) ++ rv :: rp ∧
      t'._len = (ls.reverse ++ pre).length + 1 ∧
      t'._str = strJoin (rv :: (ls.reverse ++ pre).reverse) ∧
      t'._hash = (if ls = [] then t._hash else if rh then pyStrHash t'._str else t._hash) := by
  have hs : t._str ≠ "" ∨ ls = [] := by
    cases hls : ls with
    | nil => exact Or.inr rfl
    | cons l rest =>
      left
      intro hstr0
      rw [hls, List.foldlM_cons] at heq
      have herr : t.append l rh = .error .AssertionFail := by
        unfold ScopeTree.append
        cases hc : t.curr with
        | nil =>
          rw [hc] at hcurr
          exact absurd hcurr.symm (by simp)
        | cons v p => simp [hstr0]
      rw [herr] at heq
      exact Except.noConfusion heq
  obtain ⟨t'', heq'', g1, g2, g3, g4, g5⟩ := fold_state rh hroot hcurr hlen hstr hs
  rw [heq] at heq''
  have := Except.ok.inj heq''
  subst this
  exact ⟨g1, g2, g3, g4, g5⟩

/-- Shape of the window produced by one `append` onto the empty tree. -/
theorem append_empty_char (l : ScopeLabel) (rh : Bool) :
    ScopeTree.empty.append l rh = .ok
      { root := [l], curr := [l], _len := 1,
        _str := ScopeLabel.repr l,
        _hash := if rh then pyStrHash (ScopeLabel.repr l) else pyStrHash "" } := by
  rfl

/-- Reduction of `ScopeChain.ofList` to the underlying fold. -/
theorem ofList_eq (ls : List ScopeLabel) :
    ScopeChain.ofList ls =
      match List.foldlM (fun acc l => ScopeTree.append acc l true) ScopeTree.empty ls with
      | .error e => (.error e : Except PyErr ScopeChain)
      | .ok t => .ok ⟨t⟩ := rfl

/-- Characterization of a successful label-list constructor. -/
theorem ofList_char {ls : List ScopeLabel} {c : ScopeChain}
    (heq : ScopeChain.ofList ls = .ok c) :
    (ls = [] ∧ c = ScopeChain.empty) ∨
    ∃ l rest, ls = l :: rest ∧ c.scopetree.IsState l [] rest.reverse := by
  rw [ofList_eq] at heq
  cases hls : ls with
  | nil =>
    rw [hls] at heq
    left
    refine ⟨rfl, ?_⟩
    have heq2 : (Except.ok ScopeChain.empty : Except PyErr ScopeChain) = .ok c := heq
    exact (Except.ok.inj heq2).symm
  | cons l rest =>
    right
    rw [hls, List.foldlM_cons, append_empty_char] at heq
    have heq3 : (match List.foldlM (fun acc l => ScopeTree.append acc l true)
        (ScopeTree.mk [l] [l] 1 (ScopeLabel.repr l) (pyStrHash (ScopeLabel.repr l))) rest with
      | .error e => (.error e : Except PyErr ScopeChain)
      | .ok t => .ok ⟨t⟩) = .ok c := heq
    cases hfold : List.foldlM (fun acc l => ScopeTree.append acc l true)
        (ScopeTree.mk [l] [l] 1 (ScopeLabel.repr l) (pyStrHash (ScopeLabel.repr l))) rest with
    | error e =>
      rw [hfold] at heq3
      exact Except.noConfusion heq3
    | ok t =>
      rw [hfold] at heq3
      have hc : c = ⟨t⟩ := (Except.ok.inj heq3).symm
      obtain ⟨g1, g2, g3, g4, g5⟩ :=
        @fold_char rest _ t l [] [] true rfl rfl rfl rfl hfold
      refine ⟨l, rest, rfl, ?_⟩
      rw [hc]
      refine ⟨by simpa using g1, by simpa using g2, by simpa using g3, by simpa using g4, ?_⟩
      cases hrest : rest with
      | nil =>
        rw [hrest] at g5 g4
        simp only [if_pos] at g5
        show t._hash = pyStrHash t._str
        rw [g5, g4]
        rfl
      | cons a as =>
        rw [hrest] at g5
        simp only [List.cons_ne_nil, if_neg, reduceIte] at g5
        exact g5

/-- `extend` by no labels only recomputes the hash. -/
theorem extendLabels_nil (t : ScopeTree) :
    t.extendLabels [] = .ok { t with _hash := pyStrHash t._str } := rfl

/-- `extend` from a shaped window succeeds when the window's string is
nonempty (or there is nothing to append) and produces the canonical window for
the concatenated label sequence. -/
theorem extendLabels_state {ls : List ScopeLabel} {t : ScopeTree} {rv : ScopeLabel}
    {rp pre : List ScopeLabel}
    (hroot : t.root = rv :: rp) (hcurr : t.curr = pre ++ rv :: rp)
    (hlen : t._len = pre.length + 1) (hstr : t._str = strJoin (rv :: pre.reverse))
    (hs : t._str ≠ "" ∨ ls = []) :
    ∃ t', t.extendLabels ls = .ok t' ∧ t'.IsState rv rp (ls.reverse ++ pre) := by
  obtain ⟨t1, heq, g1, g2, g3, g4, -⟩ := fold_state false hroot hcurr hlen hstr hs
  refine ⟨{ t1 with _hash := pyStrHash t1._str }, ?_, g1, g2, g3, g4, rfl⟩
  unfold ScopeTree.extendLabels
  rw [heq]

/-- `extend` of the empty tree by a nonempty label list whose first label has
nonempty `repr` when more labels follow. -/
theorem extendLabels_empty {l : ScopeLabel} {rest : List ScopeLabel}
    (hFirst : FirstOk (l :: rest) = true) :
    ∃ t', ScopeTree.empty.extendLabels (l :: rest) = .ok t' ∧
      t'.IsState l [] rest.reverse := by
  have hred : ScopeTree.empty.extendLabels (l :: rest) =
      match List.foldlM (fun acc l => ScopeTree.append acc l false)
          (ScopeTree.mk [l] [l] 1 (ScopeLabel.repr l) (pyStrHash "")) rest with
      | .error e => (.error e : Except PyErr ScopeTree)
      | .ok t' => .ok { t' with _hash := pyStrHash t'._str } := by
    unfold ScopeTree.extendLabels
    rw [List.foldlM_cons, append_empty_char]
    simp only [Bool.false_eq_true, reduceIte]
    rfl
  have hcond : (ScopeTree.mk [l] [l] 1 (ScopeLabel.repr l) (pyStrHash ""))._str ≠ "" ∨
      rest = [] := by
    cases hrest : rest with
    | nil => exact Or.inr rfl
    | cons a as =>
      left
      rw [hrest] at hFirst
      simpa [FirstOk] using hFirst
  obtain ⟨t1, heq, g1, g2, g3, g4, -⟩ :=
    @fold_state rest (ScopeTree.mk [l] [l] 1 (ScopeLabel.repr l) (pyStrHash "")) l [] []
      false rfl rfl rfl rfl hcond
  refine ⟨{ t1 with _hash := pyStrHash t1._str }, ?_, by simpa using g1, by simpa using g2,
    by simpa using g3, by simpa using g4, rfl⟩
  rw [hred, heq]

/-- Two canonically characterized windows over the same root node and leaf
chain compare equal under `_ScopeTree.__eq__`. -/
theorem beq_of_states {t1 t2 : ScopeTree} {rv : ScopeLabel} {rp pre : List ScopeLabel}
    (h1 : t1.IsState rv rp pre) (h2 : t2.IsState rv rp pre) :
    ScopeTree.beq t1 t2 = true := by
  obtain ⟨r1, c1, l1, s1, -⟩ := h1
  obtain ⟨r2, c2, l2, s2, -⟩ := h2
  exact beq_of_fields (by rw [r1, r2]) (by rw [l1, l2]) (by rw [s1, s2])

/-! Claim theorems. -/

/-- C3: the `ScopeLabel` constructor fails (with the definition/validation
error class) exactly when the given kind is not in the recognized enumeration,
and otherwise stores name, kind and loop index unchanged. -/
theorem scopeLabelMakeSpec (name ty : String) (loop : Option Int) :
    (ty ∈ scopetype_list → ScopeLabel.make name ty loop = .ok ⟨name, ty, loop⟩) ∧
    (ty ∉ scopetype_list → ScopeLabel.make name ty loop = .error .DefinitionError) := by
  constructor <;> intro h <;> simp [ScopeLabel.make, h]

/-- C3 witness: the constructor succeeds on a recognized kind and fails on an
unrecognized one. -/
theorem scopeLabelMakeWitness :
    ScopeLabel.make "x" "module" none = .ok ⟨"x", "module", none⟩ ∧
    ScopeLabel.make "x" "bogus" (some 2) = .error .DefinitionError :=
  ⟨(scopeLabelMakeSpec "x" "module" none).1 (by decide),
   (scopeLabelMakeSpec "x" "bogus" (some 2)).2 (by decide)⟩

/-- C6: a label with recognized non-wildcard kind `K` and a label with the
wildcard kind `any` but the same name and loop index are equal in both
directions, and their hashes (computed from name and loop index only) agree. -/
theorem wildcardEqHashSpec (name K : String) (idx : Option Int)
    (hK : K ∈ scopetype_list) (hne : K ≠ "any") :
    ScopeLabel.beq ⟨name, K, idx⟩ ⟨name, "any", idx⟩ = true ∧
    ScopeLabel.beq ⟨name, "any", idx⟩ ⟨name, K, idx⟩ = true ∧
    ScopeLabel.pyhash ⟨name, K, idx⟩ = ScopeLabel.pyhash ⟨name, "any", idx⟩ := by
  refine ⟨?_, ?_, rfl⟩ <;> simp [ScopeLabel.beq]

/-- C6 witness: instantiation at a concrete name, kind and loop index. -/
theorem wildcardEqHashWitness :
    ScopeLabel.beq ⟨"i", "for", some 1⟩ ⟨"i", "any", some 1⟩ = true ∧
    ScopeLabel.beq ⟨"i", "any", some 1⟩ ⟨"i", "for", some 1⟩ = true ∧
    ScopeLabel.pyhash ⟨"i", "for", some 1⟩ = ScopeLabel.pyhash ⟨"i", "any", some 1⟩ :=
  wildcardEqHashSpec "i" "for" (some 1) (by decide) (by decide)

/-- C2 counterexample: the two-label chain of the claim renders as
`"body_3_"`, not `"_3_body"`. -/
theorem tocodeForLoopCounterexample :
    ScopeChain.ofList [⟨"L", "for", some 3⟩, ⟨"body", "block", none⟩] = .ok cxForBody ∧
    cxForBody.tocode ≠ "_3_body" := by decide

/-- C2 (amended): rendering the chain `[Label("L", for, 3), Label("body",
block)]` returns `"body_3_"`: the `for` label renders empty and seeds the
pending loop-index token, which is appended after (not before) the next
label's rendered name. -/
theorem tocodeForLoopRender :
    ScopeChain.ofList [⟨"L", "for", some 3⟩, ⟨"body", "block", none⟩] = .ok cxForBody ∧
    cxForBody.tocode = "body_3_" := by decide

/-- C4 counterexample: concatenation with a right operand that is neither a
label nor a chain raises the `DefinitionError` class, not `TypeError`. -/
theorem addOperandErrorCounterexample :
    ScopeChain.add ScopeChain.empty .other = .error .DefinitionError ∧
    PyErr.DefinitionError ≠ PyErr.TypeError := by decide

/-- C7 counterexample: on the empty chain the qualification-lowering iterator
raises an assertion failure instead of yielding one chain. -/
theorem lessQualEmptyCounterexample :
    ScopeChain.less_qual_iter ScopeChain.empty = .error .AssertionFail := by decide

/-- C9 counterexample: the chain built from a single empty-named label exists,
but appending a label to it raises an assertion failure (the memoized string
is empty), so `+` is not total on chains and labels. -/
theorem addAssertCounterexample :
    ScopeChain.ofList [⟨"", "module", none⟩] = .ok cxEmptyName ∧
    cxEmptyName.add (.label ⟨"x", "module", none⟩) = .error .AssertionFail := by decide

/-- C1 counterexample: the slice `[a,b,c][1:3]` and the freshly built chain
`[b,c]` have structurally equal label sequences and equal hashes, yet compare
unequal in both directions, because the slice's window root keeps its backing
ancestry below the window. -/
theorem sliceEqualityCounterexample :
    ScopeChain.ofList [cxA, cxB, cxC] = .ok cxFull ∧
    cxFull.scopetree.getSlice (some 1) (some 3) none = .ok cxSlice ∧
    ScopeChain.ofList [cxB, cxC] = .ok cxFresh ∧
    labelSeqEq cxSlice.labels cxFresh.labels = true ∧
    ScopeChain.beq cxSlice cxFresh = false ∧
    ScopeChain.beq cxFresh cxSlice = false ∧
    cxSlice.pyhash = cxFresh.pyhash := by decide

/-- C5 counterexample: for the slice chain `[a,b,c][1:3]`, prepending the
canonical empty chain is not an identity: `empty + c` is label-equal to `c`
but compares unequal in both directions. -/
theorem leftIdentityCounterexample :
    ScopeChain.add ScopeChain.empty (.chain cxSlice) = .ok cxLeftId ∧
    labelSeqEq cxLeftId.labels cxSlice.labels = true ∧
    ScopeChain.beq cxLeftId cxSlice = false ∧
    ScopeChain.beq cxSlice cxLeftId = false := by decide

/-- C8 counterexample: slicing with step 2 fails with `KeyError` and slicing
with step 0 fails with `ValueError` (raised by `slice.indices`); neither is
the `IndexError` class. -/
theorem sliceStepKeyErrorCounterexample :
    cxFull.scopetree.getSlice (some 0) (some 3) (some 2) = .error .KeyError ∧
    cxFull.scopetree.getSlice (some 0) (some 3) (some 0) = .error .ValueError ∧
    PyErr.KeyError ≠ PyErr.IndexError ∧
    PyErr.ValueError ≠ PyErr.IndexError := by decide

/-- `labelSeqEq` forces equal lengths. -/
theorem labelSeqEq_length {l1 l2 : List ScopeLabel} (h : labelSeqEq l1 l2 = true) :
    l1.length = l2.length := by
  induction l1 generalizing l2 with
  | nil => cases l2 with
    | nil => rfl
    | cons b bs => exact absurd h (by simp [labelSeqEq])
  | cons a as ih => cases l2 with
    | nil => exact absurd h (by simp [labelSeqEq])
    | cons b bs =>
      simp only [labelSeqEq, Bool.and_eq_true] at h
      simp [ih h.2]

/-- `labelSeqEq` forces equal `repr` sequences (label equality never compares
more than name, kind up to wildcard, and loop index, and `repr` only uses name
and loop index). -/
theorem labelSeqEq_map_repr {l1 l2 : List ScopeLabel} (h : labelSeqEq l1 l2 = true) :
    l1.map ScopeLabel.repr = l2.map ScopeLabel.repr := by
  induction l1 generalizing l2 with
  | nil => cases l2 with
    | nil => rfl
    | cons b bs => exact absurd h (by simp [labelSeqEq])
  | cons a as ih => cases l2 with
    | nil => exact absurd h (by simp [labelSeqEq])
    | cons b bs =>
      simp only [labelSeqEq, Bool.and_eq_true] at h
      simp only [List.map_cons]
      rw [labelBeq_repr_eq h.1, ih h.2]

/-- C1 (amended): two reachable chains with structurally equal label sequences
always have equal memoized canonical strings and equal hashes; they compare
equal (`==`) provided additionally their window-root nodes are equal under
`_ScopeTreeNode.__eq__` (which compares below-window ancestry as well) — the
hash/string part never needs shared backing, while `==` does depend on the
roots' backing ancestry. -/
theorem labelSeqEqualImpliesHashAndRootedEq (c1 c2 : ScopeChain)
    (h1 : c1.scopetree.Inv) (h2 : c2.scopetree.Inv)
    (hseq : labelSeqEq c1.labels c2.labels = true) :
    (c1.pyhash = c2.pyhash ∧ c1.scopetree._str = c2.scopetree._str) ∧
    (nodeEq c1.scopetree.root c2.scopetree.root = true → ScopeChain.beq c1 c2 = true) := by
  rcases h1 with h1 | ⟨rv1, rp1, pre1, h1⟩ <;> rcases h2 with h2 | ⟨rv2, rp2, pre2, h2⟩
  · constructor
    · constructor
      · show c1.scopetree._hash = c2.scopetree._hash
        rw [h1, h2]
      · rw [h1, h2]
    · intro hn
      show ScopeTree.beq c1.scopetree c2.scopetree = true
      rw [h1, h2]
      decide
  · exfalso
    have e1 : c1.labels = [] := by
      show c1.scopetree.labels = []
      rw [h1]
      rfl
    have e2 : c2.labels = rv2 :: pre2.reverse := labels_of_state h2
    rw [e1, e2] at hseq
    exact absurd hseq (by simp [labelSeqEq])
  · exfalso
    have e1 : c1.labels = rv1 :: pre1.reverse := labels_of_state h1
    have e2 : c2.labels = [] := by
      show c2.scopetree.labels = []
      rw [h2]
      rfl
    rw [e1, e2] at hseq
    exact absurd hseq (by simp [labelSeqEq])
  · have e1 : c1.labels = rv1 :: pre1.reverse := labels_of_state h1
    have e2 : c2.labels = rv2 :: pre2.reverse := labels_of_state h2
    obtain ⟨-, -, l1, s1, hh1⟩ := h1
    obtain ⟨-, -, l2, s2, hh2⟩ := h2
    have hstr : c1.scopetree._str = c2.scopetree._str := by
      rw [s1, s2]
      show dotJoin ((rv1 :: pre1.reverse).map ScopeLabel.repr) =
        dotJoin ((rv2 :: pre2.reverse).map ScopeLabel.repr)
      rw [← e1, ← e2, labelSeqEq_map_repr hseq]
    have hlen : c1.scopetree._len = c2.scopetree._len := by
      have := labelSeqEq_length hseq
      rw [e1, e2] at this
      simp only [List.length_cons, List.length_reverse] at this
      rw [l1, l2, this]
    refine ⟨⟨?_, hstr⟩, ?_⟩
    · show c1.scopetree._hash = c2.scopetree._hash
      rw [hh1, hh2, hstr]
    · intro hn
      show ScopeTree.beq c1.scopetree c2.scopetree = true
      unfold ScopeTree.beq
      rw [if_neg]
      · simp [hstr]
      · simp [hn, hlen]

/-- C1 witness: instantiation at two structurally equal concrete chains. -/
theorem labelSeqEqualWitness :
    (cxFresh.pyhash = cxFresh.pyhash ∧ cxFresh.scopetree._str = cxFresh.scopetree._str) ∧
    (nodeEq cxFresh.scopetree.root cxFresh.scopetree.root = true →
      ScopeChain.beq cxFresh cxFresh = true) :=
  labelSeqEqualImpliesHashAndRootedEq cxFresh cxFresh
    (Or.inr ⟨cxB, [], [cxC], by unfold ScopeTree.IsState; decide⟩)
    (Or.inr ⟨cxB, [], [cxC], by unfold ScopeTree.IsState; decide⟩)
    (by decide)

/-- `nameLoopEq` forces equal lengths. -/
theorem nameLoopEq_length {l1 l2 : List ScopeLabel} (h : nameLoopEq l1 l2 = true) :
    l1.length = l2.length := by
  induction l1 generalizing l2 with
  | nil => cases l2 with
    | nil => rfl
    | cons b bs => exact absurd h (by simp [nameLoopEq])
  | cons a as ih => cases l2 with
    | nil => exact absurd h (by simp [nameLoopEq])
    | cons b bs =>
      simp only [nameLoopEq, Bool.and_eq_true] at h
      simp [ih h.2]

/-- `nameLoopEq` forces equal `repr` sequences. -/
theorem nameLoopEq_map_repr {l1 l2 : List ScopeLabel} (h : nameLoopEq l1 l2 = true) :
    l1.map ScopeLabel.repr = l2.map ScopeLabel.repr := by
  induction l1 generalizing l2 with
  | nil => cases l2 with
    | nil => rfl
    | cons b bs => exact absurd h (by simp [nameLoopEq])
  | cons a as ih => cases l2 with
    | nil => exact absurd h (by simp [nameLoopEq])
    | cons b bs =>
      simp only [nameLoopEq, Bool.and_eq_true, beq_iff_eq] at h
      simp only [List.map_cons]
      have hr : ScopeLabel.repr a = ScopeLabel.repr b := by
        unfold ScopeLabel.repr
        rw [h.1.1, h.1.2]
      rw [hr, ih h.2]

/-- C10: for two nonempty label lists that agree pairwise on name and loop
index and whose first labels also have equal kinds, the chains built from them
(when construction succeeds) are equal and hash equal, even when the kinds of
later labels differ: beyond the root label only the kind-free `repr` string
enters comparison and hashing. -/
theorem reprOnlyEqualitySpec (ls1 ls2 : List ScopeLabel) (c1 c2 : ScopeChain)
    (hne : ls1 ≠ []) (hnl : nameLoopEq ls1 ls2 = true)
    (hkind : (ls1.headD anyLabel).scopetype = (ls2.headD anyLabel).scopetype)
    (h1 : ScopeChain.ofList ls1 = .ok c1) (h2 : ScopeChain.ofList ls2 = .ok c2) :
    ScopeChain.beq c1 c2 = true ∧ c1.pyhash = c2.pyhash := by
  rcases ofList_char h1 with ⟨hnil, -⟩ | ⟨a1, r1, hls1, hst1⟩
  · exact absurd hnil hne
  rcases ofList_char h2 with ⟨hnil, -⟩ | ⟨a2, r2, hls2, hst2⟩
  · rw [hnil, hls1] at hnl
    exact absurd hnl (by simp [nameLoopEq])
  have hmap : ls1.map ScopeLabel.repr = ls2.map ScopeLabel.repr := nameLoopEq_map_repr hnl
  have hlen12 : ls1.length = ls2.length := nameLoopEq_length hnl
  have hhead : a1 = a2 := by
    rw [hls1, hls2] at hnl hkind
    simp only [nameLoopEq, Bool.and_eq_true, beq_iff_eq] at hnl
    simp only [List.headD_cons] at hkind
    cases a1; cases a2
    simp only [ScopeLabel.mk.injEq]
    simp only at hkind hnl
    exact ⟨hnl.1.1, hkind, hnl.1.2⟩
  obtain ⟨r1', c1', l1', s1', hh1'⟩ := hst1
  obtain ⟨r2', c2', l2', s2', hh2'⟩ := hst2
  have hstr : c1.scopetree._str = c2.scopetree._str := by
    rw [s1', s2']
    show dotJoin ((a1 :: r1.reverse.reverse).map ScopeLabel.repr) =
      dotJoin ((a2 :: r2.reverse.reverse).map ScopeLabel.repr)
    rw [List.reverse_reverse, List.reverse_reverse, ← hls1, ← hls2, hmap]
  have hlen : c1.scopetree._len = c2.scopetree._len := by
    rw [l1', l2']
    rw [hls1, hls2] at hlen12
    simp only [List.length_cons] at hlen12
    simp [hlen12]
  constructor
  · show ScopeTree.beq c1.scopetree c2.scopetree = true
    unfold ScopeTree.beq
    rw [if_neg]
    · simp [hstr]
    · rw [r1', r2', hhead, hlen]
      simp [nodeEq_refl]
  · show c1.scopetree._hash = c2.scopetree._hash
    rw [hh1', hh2', hstr]

/-- C10 witness: two concrete chains whose second labels have different kinds
(`block` vs `signal`) but matching names and loop indices. -/
theorem reprOnlyEqualityWitness :
    ScopeChain.beq cxW1 cxW2 = true ∧ cxW1.pyhash = cxW2.pyhash :=
  reprOnlyEqualitySpec [⟨"m", "module", none⟩, ⟨"x", "block", none⟩]
    [⟨"m", "module", none⟩, ⟨"x", "signal", none⟩] cxW1 cxW2
    (by decide) (by decide) (by decide) (by decide) (by decide)

/-- Reduction of `ScopeChain.__add__` on a label operand. -/
theorem add_label_eq (c : ScopeChain) (l : ScopeLabel) :
    c.add (.label l) =
      match c.scopetree.append l true with
      | .error e => (.error e : Except PyErr ScopeChain)
      | .ok t => .ok ⟨t⟩ := rfl

/-- Reduction of `ScopeChain.__add__` on a chain operand. -/
theorem add_chain_eq (c d : ScopeChain) :
    c.add (.chain d) =
      match c.scopetree.extendLabels d.scopetree.labels with
      | .error e => (.error e : Except PyErr ScopeChain)
      | .ok t => .ok ⟨t⟩ := rfl

/-- Appending a label to a reachable chain succeeds (when the append assertion
cannot fire) and appends exactly that label to the label sequence, yielding a
reachable chain. -/
theorem add_label_total (c : ScopeChain) (l : ScopeLabel) (hInv : c.scopetree.Inv)
    (hcond : c.scopetree.curr = [] ∨ c.scopetree._str ≠ "") :
    ∃ d, c.add (.label l) = .ok d ∧ d.labels = c.labels ++ [l] ∧ d.scopetree.Inv := by
  rcases hInv with he | ⟨rv, rp, pre, hst⟩
  · refine ⟨⟨ScopeTree.mk [l] [l] 1 (ScopeLabel.repr l) (pyStrHash (ScopeLabel.repr l))⟩,
      ?_, ?_, ?_⟩
    · rw [add_label_eq, he, append_empty_char]
      simp only [reduceIte]
    · have hlc : c.labels = [] := by
        show c.scopetree.labels = []
        rw [he]
        rfl
      rw [hlc]
      show (collectToRoot [l] [l] ++ [l].take 1).reverse = [] ++ [l]
      simp [collectToRoot]
    · exact Or.inr ⟨l, [], [], rfl, rfl, rfl, rfl, rfl⟩
  · have hs : c.scopetree._str ≠ "" := by
      rcases hcond with h | h
      · rw [hst.2.1] at h
        exact absurd h (by simp)
      · exact h
    obtain ⟨hroot, hcurr, hlen, hstr, hh⟩ := hst
    obtain ⟨t', heq, g1, g2, g3, g4, g5⟩ := append_state hroot hcurr hlen hstr hs l true
    have hh' : t'._hash = pyStrHash t'._str := by
      rw [g5]
      rfl
    refine ⟨⟨t'⟩, ?_, ?_, Or.inr ⟨rv, rp, l :: pre, g1, g2, g3, g4, hh'⟩⟩
    · rw [add_label_eq, heq]
    · show t'.labels = c.scopetree.labels ++ [l]
      rw [labels_of_state (t := t') ⟨g1, g2, g3, g4, hh'⟩,
        labels_of_state ⟨hroot, hcurr, hlen, hstr, hh⟩]
      simp

/-- Extending a reachable chain by another reachable chain succeeds (when no
append assertion can fire) and concatenates the label sequences, yielding a
reachable chain. -/
theorem add_chain_total (c r : ScopeChain) (hInvc : c.scopetree.Inv)
    (hInvr : r.scopetree.Inv)
    (hcond : (c.scopetree.curr = [] ∧ FirstOk r.labels = true) ∨
      (c.scopetree.curr ≠ [] ∧ c.scopetree._str ≠ "")) :
    ∃ d, c.add (.chain r) = .ok d ∧ d.labels = c.labels ++ r.labels ∧ d.scopetree.Inv := by
  rcases hcond with ⟨hce, hfo⟩ | ⟨hcne, hs⟩
  · have he : c.scopetree = ScopeTree.empty := by
      rcases hInvc with he | ⟨rv, rp, pre, hst⟩
      · exact he
      · rw [hst.2.1] at hce
        exact absurd hce (by simp)
    have hlc : c.labels = [] := by
      show c.scopetree.labels = []
      rw [he]
      rfl
    cases hr : r.labels with
    | nil =>
      refine ⟨⟨{ c.scopetree with _hash := pyStrHash c.scopetree._str }⟩, ?_, ?_, ?_⟩
      · rw [add_chain_eq]
        have hrl : r.scopetree.labels = [] := hr
        rw [hrl, extendLabels_nil]
      · show ({ c.scopetree with _hash := pyStrHash c.scopetree._str } : ScopeTree).labels =
          c.scopetree.labels ++ ([] : List ScopeLabel)
        rw [he]
        rfl
      · rw [he]
        exact Or.inl rfl
    | cons l rest =>
      rw [hr] at hfo
      obtain ⟨t', heq, hst'⟩ := extendLabels_empty hfo
      refine ⟨⟨t'⟩, ?_, ?_, Or.inr ⟨l, [], rest.reverse, hst'⟩⟩
      · rw [add_chain_eq]
        have hrl : r.scopetree.labels = l :: rest := hr
        rw [hrl, show c.scopetree = ScopeTree.empty from he, heq]
      · show t'.labels = c.scopetree.labels ++ (l :: rest)
        have hlc' : c.scopetree.labels = [] := hlc
        rw [labels_of_state (t := t') hst', hlc']
        simp
  · have hstx : ∃ rv rp pre, c.scopetree.IsState rv rp pre := by
      rcases hInvc with he | h
      · rw [he] at hcne
        exact absurd rfl hcne
      · exact h
    obtain ⟨rv, rp, pre, hroot, hcurr, hlen, hstr, hh⟩ := hstx
    obtain ⟨t', heq, hst'⟩ :=
      @extendLabels_state r.scopetree.labels c.scopetree rv rp pre hroot hcurr hlen hstr
        (Or.inl hs)
    refine ⟨⟨t'⟩, ?_, ?_, Or.inr ⟨rv, rp, _, hst'⟩⟩
    · rw [add_chain_eq, heq]
    · show t'.labels = c.scopetree.labels ++ r.scopetree.labels
      rw [labels_of_state (t := t') hst', labels_of_state ⟨hroot, hcurr, hlen, hstr, hh⟩]
      simp

/-- The concrete chain `cxFresh` is reachable and satisfies the window
invariant. -/
theorem cxFresh_inv : cxFresh.scopetree.Inv :=
  Or.inr ⟨cxB, [], [cxC], by unfold ScopeTree.IsState; decide⟩

/-- C9 (amended): `chain + label` and `chain + otherChain` are persistent
updates producing a new chain whose label sequence is the left operand's
sequence followed by the appended label(s) — provided the internal
nonempty-string assertion of `append` cannot fire (it fires exactly when a
nonempty chain with empty memoized string is extended further; see the
counterexample).  The embedding is purely functional, mirroring that the code
only ever mutates the freshly copied tree, never the operands. -/
theorem addPersistentSpec :
    (∀ (c : ScopeChain) (l : ScopeLabel), c.scopetree.Inv →
      (c.scopetree.curr = [] ∨ c.scopetree._str ≠ "") →
      ∃ d, c.add (.label l) = .ok d ∧ d.labels = c.labels ++ [l] ∧ d.scopetree.Inv) ∧
    (∀ (c r : ScopeChain), c.scopetree.Inv → r.scopetree.Inv →
      ((c.scopetree.curr = [] ∧ FirstOk r.labels = true) ∨
        (c.scopetree.curr ≠ [] ∧ c.scopetree._str ≠ "")) →
      ∃ d, c.add (.chain r) = .ok d ∧ d.labels = c.labels ++ r.labels ∧ d.scopetree.Inv) :=
  ⟨fun c l h1 h2 => add_label_total c l h1 h2,
   fun c r h1 h2 h3 => add_chain_total c r h1 h2 h3⟩

/-- C9 witness: appending a concrete label and a concrete chain to `cxFresh`. -/
theorem addPersistentWitness :
    (∃ d, cxFresh.add (.label cxA) = .ok d ∧ d.labels = cxFresh.labels ++ [cxA] ∧
      d.scopetree.Inv) ∧
    ∃ d, cxFresh.add (.chain cxFresh) = .ok d ∧
      d.labels = cxFresh.labels ++ cxFresh.labels ∧ d.scopetree.Inv :=
  ⟨addPersistentSpec.1 cxFresh cxA cxFresh_inv (Or.inr (by decide)),
   addPersistentSpec.2 cxFresh cxFresh cxFresh_inv cxFresh_inv
     (Or.inr ⟨by decide, by decide⟩)⟩

/-- C4 (amended): concatenation with a right operand that is neither a label
nor a chain always fails with the `DefinitionError` class (the spec's
validation-error class, not `TypeError`; `TypeError` is reserved by the code
for the chain constructor and for non-slice non-integer subscripts); a label
or chain operand succeeds whenever the internal nonempty-string assertion of
`append` cannot fire. -/
theorem addOperandErrorSpec :
    (∀ c : ScopeChain, c.add .other = .error .DefinitionError) ∧
    (∀ (c : ScopeChain) (l : ScopeLabel), c.scopetree.Inv →
      (c.scopetree.curr = [] ∨ c.scopetree._str ≠ "") →
      ∃ d, c.add (.label l) = .ok d) ∧
    (∀ (c r : ScopeChain), c.scopetree.Inv → r.scopetree.Inv →
      ((c.scopetree.curr = [] ∧ FirstOk r.labels = true) ∨
        (c.scopetree.curr ≠ [] ∧ c.scopetree._str ≠ "")) →
      ∃ d, c.add (.chain r) = .ok d) := by
  refine ⟨fun c => rfl, ?_, ?_⟩
  · intro c l h1 h2
    obtain ⟨d, hd, -, -⟩ := add_label_total c l h1 h2
    exact ⟨d, hd⟩
  · intro c r h1 h2 h3
    obtain ⟨d, hd, -, -⟩ := add_chain_total c r h1 h2 h3
    exact ⟨d, hd⟩

/-- C4 witness: the error case and both success cases at concrete inputs. -/
theorem addOperandErrorWitness :
    ScopeChain.empty.add .other = .error .DefinitionError ∧
    (∃ d, cxFresh.add (.label cxA) = .ok d) ∧
    ∃ d, cxFresh.add (.chain cxFresh) = .ok d :=
  ⟨addOperandErrorSpec.1 ScopeChain.empty,
   addOperandErrorSpec.2.1 cxFresh cxA cxFresh_inv (Or.inr (by decide)),
   addOperandErrorSpec.2.2 cxFresh cxFresh cxFresh_inv cxFresh_inv
     (Or.inr ⟨by decide, by decide⟩)⟩

/-- C5 (amended): `c + empty == c` holds for every chain; `empty + c == c`
holds for every reachable chain whose window root carries no below-window
ancestry (root node length at most 1, as for every chain built without
slicing) and whose labels cannot trip the append assertion; a slice chain
whose window root keeps deeper backing ancestry violates the left identity
(see the counterexample). -/
theorem concatIdentitySpec :
    (∀ c : ScopeChain, ∃ d, c.add (.chain ScopeChain.empty) = .ok d ∧
      ScopeChain.beq d c = true ∧ ScopeChain.beq c d = true) ∧
    (∀ c : ScopeChain, c.scopetree.Inv → c.scopetree.root.length ≤ 1 →
      FirstOk c.labels = true →
      ∃ d, ScopeChain.empty.add (.chain c) = .ok d ∧
        ScopeChain.beq d c = true ∧ ScopeChain.beq c d = true) := by
  constructor
  · intro c
    refine ⟨⟨{ c.scopetree with _hash := pyStrHash c.scopetree._str }⟩, ?_, ?_, ?_⟩
    · rw [add_chain_eq]
      have h0 : ScopeChain.empty.scopetree.labels = [] := rfl
      rw [h0, extendLabels_nil]
    · exact beq_of_fields rfl rfl rfl
    · exact beq_of_fields rfl rfl rfl
  · intro c hInv hroot1 hfo
    rcases hInv with he | ⟨rv, rp, pre, hst⟩
    · refine ⟨ScopeChain.empty, ?_, ?_, ?_⟩
      · rw [add_chain_eq]
        have hrl : c.scopetree.labels = [] := by rw [he]; rfl
        rw [hrl]
        rfl
      · show ScopeTree.beq ScopeTree.empty c.scopetree = true
        rw [he]
        decide
      · show ScopeTree.beq c.scopetree ScopeTree.empty = true
        rw [he]
        decide
    · have hrp : rp = [] := by
        rw [hst.1] at hroot1
        simpa using hroot1
      subst hrp
      have hlab : c.labels = rv :: pre.reverse := labels_of_state hst
      have hfo' : FirstOk (rv :: pre.reverse) = true := by rw [← hlab]; exact hfo
      obtain ⟨t', heq, hst'⟩ := extendLabels_empty hfo'
      rw [List.reverse_reverse] at hst'
      refine ⟨⟨t'⟩, ?_, ?_, ?_⟩
      · rw [add_chain_eq]
        have hrl : c.scopetree.labels = rv :: pre.reverse := hlab
        rw [hrl, show ScopeChain.empty.scopetree = ScopeTree.empty from rfl, heq]
      · exact beq_of_states hst' hst
      · exact beq_of_states hst hst'

/-- C5 witness: the right identity at the slice chain and the left identity at
a freshly built chain. -/
theorem concatIdentityWitness :
    (∃ d, cxSlice.add (.chain ScopeChain.empty) = .ok d ∧
      ScopeChain.beq d cxSlice = true ∧ ScopeChain.beq cxSlice d = true) ∧
    ∃ d, ScopeChain.empty.add (.chain cxFresh) = .ok d ∧
      ScopeChain.beq d cxFresh = true ∧ ScopeChain.beq cxFresh d = true :=
  ⟨concatIdentitySpec.1 cxSlice,
   concatIdentitySpec.2 cxFresh cxFresh_inv (by decide)
     (by show FirstOk cxFresh.scopetree.labels = true; decide)⟩

/-- The integer-index walk on a well-formed window returns the element the
walked distance away from the leaf, and never meets the root early. -/
theorem walkIndex_spec (m : Nat) (pre : List ScopeLabel) {root : List ScopeLabel}
    (hr : root ≠ []) (hm : m ≤ pre.length) :
    walkIndex root m (pre ++ root) = .ok ((pre ++ root).getD m anyLabel) := by
  induction m generalizing pre with
  | zero =>
    cases pre with
    | nil =>
      match root, hr with
      | v :: p, _ => rfl
    | cons x p => rfl
  | succ m ih =>
    cases pre with
    | nil => exact absurd hm (by simp)
    | cons x p =>
      have hne : x :: (p ++ root) ≠ root := by
        apply ne_of_length_ne
        simp [List.length_append]
        match root, hr with
        | v :: q, _ => simp; omega
      show walkIndex root (m + 1) (x :: (p ++ root)) = _
      unfold walkIndex
      rw [if_neg hne, ih p (by simpa using hm)]
      rw [show ((x :: p ++ root).getD (m + 1) anyLabel : ScopeLabel) =
        (p ++ root).getD m anyLabel from List.getD_cons_succ]

/-- Index/label correspondence on a well-formed window: position `m` from the
leaf-first chain equals position `pre.length - m` in root-to-leaf label
order. -/
theorem getD_state_relation {rv : ScopeLabel} {rp : List ScopeLabel}
    (pre : List ScopeLabel) (m : Nat) (hm : m ≤ pre.length) :
    (pre ++ rv :: rp).getD m anyLabel = (rv :: pre.reverse).getD (pre.length - m) anyLabel := by
  rcases Nat.lt_or_ge m pre.length with h | h
  · have h1 : (pre ++ rv :: rp).getD m anyLabel = pre.getD m anyLabel := by
      simp [List.getD, List.getElem?_append_left h]
    have hd : pre.length - m = (pre.length - m - 1) + 1 := by omega
    have h2 : (rv :: pre.reverse).getD (pre.length - m) anyLabel =
        pre.reverse.getD (pre.length - m - 1) anyLabel := by
      rw [hd]
      exact List.getD_cons_succ
    rw [h1, h2]
    have hb1 : pre.length - m - 1 < pre.reverse.length := by simp; omega
    have hb2 : m < pre.length := h
    rw [List.getD_eq_getElem _ _ hb1, List.getD_eq_getElem _ _ hb2]
    rw [List.getElem_reverse]
    congr 1
    omega
  · have hme : m = pre.length := by omega
    subst hme
    have h1 : (pre ++ rv :: rp).getD pre.length anyLabel = rv := by
      simp [List.getD, List.getElem?_append_right (le_refl pre.length)]
    rw [h1]
    simp

/-- In-range integer indexing on a characterized nonempty window returns the
label at the normalized position in root-to-leaf order. -/
theorem getIndex_state {t : ScopeTree} {rv : ScopeLabel} {rp pre : List ScopeLabel}
    (hst : t.IsState rv rp pre) (key : Int)
    (h1 : -(t._len : Int) ≤ key) (h2 : key < (t._len : Int)) :
    t.getIndex key = .ok (t.labels.getD
      ((if key < 0 then (t._len : Int) + key else key).toNat) anyLabel) := by
  have hroot := hst.1
  have hcurr := hst.2.1
  have hlen := hst.2.2.1
  unfold ScopeTree.getIndex
  rw [if_neg (by omega)]
  have hk0 : (0 : Int) ≤ if key < 0 then (t._len : Int) + key else key := by
    split <;> omega
  have hklen : (if key < 0 then (t._len : Int) + key else key) < (t._len : Int) := by
    split <;> omega
  have hknat : ((if key < 0 then (t._len : Int) + key else key)).toNat ≤ pre.length := by
    rw [hlen] at hklen
    omega
  have hfuel : ((t._len : Int) - (if key < 0 then (t._len : Int) + key else key) - 1).toNat =
      pre.length - ((if key < 0 then (t._len : Int) + key else key)).toNat := by
    rw [hlen]
    omega
  show walkIndex t.root
      (((t._len : Int) - (if key < 0 then (t._len : Int) + key else key)) - 1).toNat t.curr =
    Except.ok (t.labels.getD ((if key < 0 then (t._len : Int) + key else key)).toNat anyLabel)
  rw [hfuel, hroot, hcurr]
  rw [walkIndex_spec _ _ (by simp) (by omega)]
  rw [getD_state_relation pre _ (by omega)]
  rw [labels_of_state hst]
  have hidx : pre.length - (pre.length -
      ((if key < 0 then (t._len : Int) + key else key)).toNat) =
      ((if key < 0 then (t._len : Int) + key else key)).toNat := by
    omega
  rw [hidx]

/-- `slice.indices` with a present nonzero step always succeeds and returns
that step. -/
theorem sliceIndices_ok (start stop : Option Int) {st : Int} (h0 : st ≠ 0) (length : Nat) :
    ∃ low high, sliceIndices start stop (some st) length = .ok (low, high, st) := by
  unfold sliceIndices
  simp only [Option.getD_some]
  rw [if_neg h0]
  exact ⟨_, _, rfl⟩

/-- `slice.indices` is the identity on an explicit in-range slice with
default step. -/
theorem sliceIndices_inrange {a b : Int} {length : Nat} (ha0 : 0 ≤ a) (ha : a ≤ (length : Int))
    (hb0 : 0 ≤ b) (hb : b ≤ (length : Int)) :
    sliceIndices (some a) (some b) none length = .ok (a, b, 1) := by
  unfold sliceIndices clampIndex
  simp only [Option.getD_none]
  rw [if_neg (by omega : ¬ (1 : Int) = 0)]
  simp only [if_neg (by omega : ¬ (1 : Int) < 0)]
  rw [if_neg (by omega : ¬ a < 0), if_neg (by omega : ¬ b < 0)]
  rw [min_eq_left ha, min_eq_left hb]

/-- Reduction of `getSlice` to the normalized body once `slice.indices`
succeeds. -/
theorem getSlice_ok_indices {t : ScopeTree} {start stop step : Option Int} {low high st : Int}
    (h : sliceIndices start stop step t._len = .ok (low, high, st)) :
    t.getSlice start stop step = t.getSlicePost low high st := by
  unfold ScopeTree.getSlice
  rw [h]

/-- C8 (amended): slicing with step 0 fails with `ValueError` raised inside
`slice.indices`, and slicing with any other step different from 1 fails with
`KeyError` (a usage error, but in neither case the `IndexError` class);
indexing with an integer outside `[-length, length)` fails with `IndexError`;
an in-range index (with negative indices counted from the end) returns the
corresponding label in root-to-leaf order. -/
theorem getitemSpec :
    (∀ (t : ScopeTree) (start stop : Option Int),
      t.getSlice start stop (some 0) = .error .ValueError) ∧
    (∀ (t : ScopeTree) (start stop : Option Int) (st : Int), st ≠ 1 → st ≠ 0 →
      t.getSlice start stop (some st) = .error .KeyError) ∧
    (∀ (t : ScopeTree) (key : Int), (key < -(t._len : Int) ∨ (t._len : Int) ≤ key) →
      t.getIndex key = .error .IndexError) ∧
    (∀ (t : ScopeTree) (key : Int), t.Inv → -(t._len : Int) ≤ key → key < (t._len : Int) →
      t.getIndex key = .ok (t.labels.getD
        ((if key < 0 then (t._len : Int) + key else key).toNat) anyLabel)) := by
  refine ⟨?_, ?_, ?_, ?_⟩
  · intro t start stop
    rfl
  · intro t start stop st h1 h0
    obtain ⟨low, high, hids⟩ := sliceIndices_ok start stop h0 t._len
    rw [getSlice_ok_indices hids]
    unfold ScopeTree.getSlicePost
    rw [if_pos h1]
  · intro t key h
    unfold ScopeTree.getIndex
    rw [if_pos h]
  · intro t key hInv h1 h2
    rcases hInv with he | ⟨rv, rp, pre, hst⟩
    · exfalso
      rw [he] at h1 h2
      have h0 : ((ScopeTree.empty._len : Nat) : Int) = 0 := rfl
      rw [h0] at h1 h2
      omega
    · exact getIndex_state hst key h1 h2

/-- C8 witness: a step-0 slice, a step-3 slice, an out-of-range index and an
in-range negative index on a concrete chain. -/
theorem getitemWitness :
    cxFresh.scopetree.getSlice (some 0) (some 2) (some 0) = .error .ValueError ∧
    cxFresh.scopetree.getSlice (some 0) (some 2) (some 3) = .error .KeyError ∧
    cxFresh.scopetree.getIndex 5 = .error .IndexError ∧
    cxFresh.scopetree.getIndex (-1) = .ok (cxFresh.scopetree.labels.getD
      ((if (-1 : Int) < 0 then (cxFresh.scopetree._len : Int) + (-1) else (-1)).toNat)
      anyLabel) :=
  ⟨getitemSpec.1 cxFresh.scopetree (some 0) (some 2),
   getitemSpec.2.1 cxFresh.scopetree (some 0) (some 2) 3 (by decide) (by decide),
   getitemSpec.2.2.1 cxFresh.scopetree 5 (Or.inr (by decide)),
   getitemSpec.2.2.2 cxFresh.scopetree (-1) cxFresh_inv (by decide) (by decide)⟩

/-- The first slice walk on a well-formed window lands the requested distance
above the leaf without meeting the root. -/
theorem walkUpSlice_spec (i : Nat) (pre : List ScopeLabel) {root : List ScopeLabel}
    (hr : root ≠ []) (hi : i ≤ pre.length) :
    walkUpSlice root i (pre ++ root) = .ok (pre.drop i ++ root) := by
  induction i generalizing pre with
  | zero => rfl
  | succ i ih =>
    cases pre with
    | nil => exact absurd hi (by simp)
    | cons x p =>
      have hne : x :: (p ++ root) ≠ root := by
        apply ne_of_length_ne
        match root, hr with
        | v :: q, _ => simp [List.length_append]; omega
      show walkUpSlice root (i + 1) (x :: (p ++ root)) = _
      unfold walkUpSlice
      rw [if_neg hne, ih p (by simpa using hi)]
      rfl

/-- The second slice walk rebuilds exactly the canonical string of the slice
window and stops at the root node. -/
theorem walkBuildStr_spec (q : List ScopeLabel) {rv : ScopeLabel} {rp : List ScopeLabel}
    (acc : String) :
    walkBuildStr (rv :: rp) q.length (q ++ rv :: rp) acc =
      .ok (rv :: rp, strJoin (rv :: q.reverse) ++ acc) := by
  induction q generalizing acc with
  | nil =>
    show walkBuildStr (rv :: rp) 0 (rv :: rp) acc = .ok (rv :: rp, strJoin [rv] ++ acc)
    rfl
  | cons x q ih =>
    have hne : x :: (q ++ rv :: rp) ≠ rv :: rp := by
      apply ne_of_length_ne
      simp [List.length_append]
      omega
    show walkBuildStr (rv :: rp) (q.length + 1) (x :: (q ++ rv :: rp)) acc = _
    unfold walkBuildStr
    rw [if_neg hne, ih ("." ++ ScopeLabel.repr x ++ acc)]
    rw [state_str_shape x]
    simp [String.append_assoc]

/-- Reduction of the normalized slice body when both walks succeed. -/
theorem getSlicePost_eq_of_walks {t : ScopeTree} {low high : Int} {nc nr : List ScopeLabel}
    {ns : String} (hne : ¬ high = low)
    (h1 : walkUpSlice t.root ((t._len : Int) - high).toNat t.curr = .ok nc)
    (h2 : walkBuildStr t.root (high - low - 1).toNat nc "" = .ok (nr, ns)) :
    t.getSlicePost low high 1 = .ok ⟨ScopeTree.mk nr nc (high - low).toNat ns (pyStrHash ns)⟩ := by
  unfold ScopeTree.getSlicePost
  rw [if_neg (by simp), if_neg hne, h1]
  show (match walkBuildStr t.root (high - low - 1).toNat nc "" with
    | .error e => (.error e : Except PyErr ScopeChain)
    | .ok (new_root, new_str) =>
      .ok ⟨{ root := new_root, curr := nc, _len := (high - low).toNat,
             _str := new_str, _hash := pyStrHash new_str }⟩) =
    .ok ⟨ScopeTree.mk nr nc (high - low).toNat ns (pyStrHash ns)⟩
  rw [h2]

/-- Slicing a characterized nonempty window as `[0:h]` with `1 ≤ h ≤ length`
yields the canonical window over the first `h` labels, sharing the backing
nodes. -/
theorem slice_state {t : ScopeTree} {rv : ScopeLabel} {rp pre : List ScopeLabel}
    (hst : t.IsState rv rp pre) (h : Nat) (hh1 : 1 ≤ h) (hh2 : h ≤ pre.length + 1) :
    ∃ d : ScopeChain, t.getSlice (some 0) (some (h : Int)) none = .ok d ∧
      d.scopetree.IsState rv rp (pre.drop (pre.length + 1 - h)) := by
  obtain ⟨hroot, hcurr, hlen, hstr, hh⟩ := hst
  have hq : (pre.drop (pre.length + 1 - h)).length = h - 1 := by
    simp only [List.length_drop]
    omega
  have hw1 : walkUpSlice t.root ((t._len : Int) - h).toNat t.curr =
      .ok (pre.drop (pre.length + 1 - h) ++ rv :: rp) := by
    rw [hroot, hcurr]
    have hf : ((t._len : Int) - h).toNat = pre.length + 1 - h := by
      rw [hlen]
      omega
    rw [hf]
    exact walkUpSlice_spec _ pre (by simp) (by omega)
  have hw2 : walkBuildStr t.root ((h : Int) - 0 - 1).toNat
      (pre.drop (pre.length + 1 - h) ++ rv :: rp) "" =
      .ok (rv :: rp, strJoin (rv :: (pre.drop (pre.length + 1 - h)).reverse)) := by
    rw [hroot]
    have hf : ((h : Int) - 0 - 1).toNat = (pre.drop (pre.length + 1 - h)).length := by
      rw [hq]
      omega
    rw [hf]
    have hb := @walkBuildStr_spec (pre.drop (pre.length + 1 - h)) rv rp ""
    rw [String.append_empty] at hb
    exact hb
  have hids : sliceIndices (some 0) (some (h : Int)) none t._len = .ok (0, (h : Int), 1) := by
    apply sliceIndices_inrange (by omega) (by rw [hlen]; omega) (by omega)
    rw [hlen]
    omega
  rw [getSlice_ok_indices hids]
  refine ⟨_, getSlicePost_eq_of_walks (by omega) hw1 hw2, rfl, rfl, ?_, rfl, rfl⟩
  show ((h : Int) - 0).toNat = (pre.drop (pre.length + 1 - h)).length + 1
  rw [hq]
  omega

/-- Reduction of `_new_pop` when neither assertion fires. -/
theorem newPop_cons {t : ScopeTree} {v : ScopeLabel} {p : List ScopeLabel}
    (hcurr : t.curr = v :: p) (hne : ¬ v :: p = t.root)
    (hs : ¬ strDropRight t._str ((ScopeLabel.repr v).length + 1) = "") :
    t.newPop = .ok
      { root := t.root, curr := p, _len := t._len - 1,
        _str := strDropRight t._str ((ScopeLabel.repr v).length + 1),
        _hash := pyStrHash (strDropRight t._str ((ScopeLabel.repr v).length + 1)) } := by
  unfold ScopeTree.newPop
  rw [hcurr]
  simp only [hne, hs, reduceIte, if_neg]

/-- `_new_pop` on a characterized window of length at least 2 pops the leaf
and maintains the characterization (the truncated-string assertion cannot fire
when the root label's `repr` is nonempty or more than one label remains). -/
theorem newPop_state {t : ScopeTree} {rv x : ScopeLabel} {rp pre' : List ScopeLabel}
    (hst : t.IsState rv rp (x :: pre'))
    (hrv : ScopeLabel.repr rv ≠ "" ∨ pre' ≠ []) :
    ∃ t', t.newPop = .ok t' ∧ t'.IsState rv rp pre' := by
  obtain ⟨hroot, hcurr, hlen, hstr, hh⟩ := hst
  have hcurr' : t.curr = x :: (pre' ++ rv :: rp) := by
    rw [hcurr]
    rfl
  have hne : ¬ x :: (pre' ++ rv :: rp) = t.root := by
    rw [hroot]
    apply ne_of_length_ne
    simp [List.length_append]
    omega
  have hsval : strDropRight t._str ((ScopeLabel.repr x).length + 1) =
      strJoin (rv :: pre'.reverse) := by
    rw [hstr, state_str_shape, strDropRight_append]
  have hsne : ¬ strDropRight t._str ((ScopeLabel.repr x).length + 1) = "" := by
    rw [hsval]
    rcases hrv with hrv | hrv
    · match hp : pre'.reverse with
      | [] =>
        show strJoin [rv] ≠ ""
        exact hrv
      | y :: l => exact strJoin_cons_ne_empty _ _ (by simp)
    · exact strJoin_cons_ne_empty _ _ (by simpa using hrv)
  refine ⟨_, newPop_cons hcurr' hne hsne, hroot, rfl, ?_, hsval, rfl⟩
  show t._len - 1 = pre'.length + 1
  rw [hlen]
  simp

/-- The yield/pop loop of `less_qual_iter` on a characterized window yields
one chain per leaf-chain node, each a canonical window over a prefix of the
label sequence, and ends on the length-1 window of the root alone. -/
theorem lessQualLoop_spec (pre : List ScopeLabel) (fuel : Nat) {t : ScopeTree}
    {rv : ScopeLabel} {rp : List ScopeLabel}
    (hst : t.IsState rv rp pre) (hfuel : pre.length < fuel)
    (hrv : pre = [] ∨ ScopeLabel.repr rv ≠ "") :
    ∃ outs final, lessQualLoop fuel t = .ok (outs, final) ∧
      outs.length = pre.length ∧ final.IsState rv rp [] ∧
      ∀ i, i < pre.length → ∃ ti, outs.getD i ScopeChain.empty = ⟨ti⟩ ∧
        ti.IsState rv rp (pre.drop i) := by
  induction pre generalizing t fuel with
  | nil =>
    obtain ⟨f, rfl⟩ : ∃ f, fuel = f + 1 := ⟨fuel - 1, by omega⟩
    refine ⟨[], t, ?_, rfl, hst, fun i hi => absurd hi (by simp)⟩
    unfold lessQualLoop
    rw [if_pos]
    rw [hst.2.1, hst.1]
    rfl
  | cons x pre' ih =>
    obtain ⟨f, rfl⟩ : ∃ f, fuel = f + 1 := ⟨fuel - 1, by omega⟩
    have hrv' : ScopeLabel.repr rv ≠ "" := hrv.resolve_left (by simp)
    have hne : ¬ t.curr = t.root := by
      rw [hst.2.1, hst.1]
      apply ne_of_length_ne
      simp [List.length_append]
      omega
    obtain ⟨t1, hpop, hst1⟩ := newPop_state hst (Or.inl hrv')
    obtain ⟨outs', final, hloop, hlen', hfin, hidx⟩ :=
      ih f hst1 (by simpa using Nat.lt_of_succ_lt_succ hfuel) (Or.inr hrv')
    refine ⟨ScopeChain.mk t :: outs', final, ?_, by simp [hlen'], hfin, ?_⟩
    · unfold lessQualLoop
      rw [if_neg hne, hpop]
      show (match lessQualLoop f t1 with
        | .error e => (.error e : Except PyErr (List ScopeChain × ScopeTree))
        | .ok (rest, last) => .ok (ScopeChain.mk t :: rest, last)) =
        .ok (ScopeChain.mk t :: outs', final)
      rw [hloop]
    · intro i hi
      cases i with
      | zero => exact ⟨t, rfl, hst⟩
      | succ j =>
        obtain ⟨ti, h1, h2⟩ := hidx j (by simpa using hi)
        exact ⟨ti, by simpa using h1, by simpa using h2⟩

/-- `getD` through the left part of an append. -/
theorem getD_append_left {α : Type} {l1 l2 : List α} {i : Nat} (d : α) (h : i < l1.length) :
    (l1 ++ l2).getD i d = l1.getD i d := by
  simp [List.getD, List.getElem?_append_left h]

/-- `getD` through the right part of an append. -/
theorem getD_append_right {α : Type} {l1 l2 : List α} {i : Nat} (d : α) (h : l1.length ≤ i) :
    (l1 ++ l2).getD i d = l2.getD (i - l1.length) d := by
  simp [List.getD, List.getElem?_append_right h]

/-- C7 (amended): for every reachable chain of length `n ≥ 1` (whose first
label has nonempty `repr` when `n ≥ 2`, so the internal pop assertion cannot
fire), the qualification-lowering iterator yields exactly `n+1` chains whose
lengths strictly decrease `n, n-1, …, 1, 0`, where element `i` compares equal
(`==`) to `chain[0 : n-i]` and the last element is the canonical empty chain.
The iterator works on a copy, and the embedding is purely functional,
mirroring that the original chain is never mutated.  (On the empty chain the
iterator instead fails the `len == 1` assertion; see the counterexample.) -/
theorem lessQualIterSpec (c : ScopeChain) (hInv : c.scopetree.Inv)
    (hn : 1 ≤ c.scopetree._len)
    (hrep : 2 ≤ c.scopetree._len → ScopeLabel.repr (c.labels.headD anyLabel) ≠ "") :
    ∃ outs, c.less_qual_iter = .ok outs ∧
      outs.length = c.scopetree._len + 1 ∧
      (∀ i, i ≤ c.scopetree._len →
        (outs.getD i ScopeChain.empty).scopetree._len = c.scopetree._len - i ∧
        ∃ d, c.scopetree.getSlice (some 0) (some ((c.scopetree._len : Int) - i)) none = .ok d ∧
          ScopeChain.beq (outs.getD i ScopeChain.empty) d = true) ∧
      outs.getD c.scopetree._len ScopeChain.empty = ScopeChain.empty := by
  rcases hInv with he | ⟨rv, rp, pre, hst⟩
  · exfalso
    rw [he] at hn
    exact absurd hn (by decide)
  · have hlen := hst.2.2.1
    have hlab : c.labels = rv :: pre.reverse := labels_of_state hst
    have hrv : pre = [] ∨ ScopeLabel.repr rv ≠ "" := by
      cases hp : pre with
      | nil => exact Or.inl rfl
      | cons a b =>
        right
        have h2 : 2 ≤ c.scopetree._len := by
          rw [hlen, hp]
          simp
        have hr := hrep h2
        rw [hlab] at hr
        simpa using hr
    have hfuel : pre.length < c.scopetree.curr.length + 1 := by
      rw [hst.2.1]
      simp [List.length_append]
      omega
    obtain ⟨outs', final, hloop, hlen', hfin, hidx⟩ :=
      lessQualLoop_spec pre (c.scopetree.curr.length + 1) hst hfuel hrv
    have hfinlen : final._len = 1 := by
      rw [hfin.2.2.1]
      rfl
    have hiter : c.less_qual_iter = .ok (outs' ++ [ScopeChain.mk final, ScopeChain.empty]) := by
      unfold ScopeChain.less_qual_iter
      rw [hloop]
      show (if final._len = 1 then
          (.ok (outs' ++ [ScopeChain.mk final, ScopeChain.empty]) : Except PyErr (List ScopeChain))
        else .error .AssertionFail) = _
      rw [if_pos hfinlen]
    refine ⟨outs' ++ [ScopeChain.mk final, ScopeChain.empty], hiter, ?_, ?_, ?_⟩
    · simp [hlen', hlen]
    · intro i hi
      by_cases h1 : i < pre.length
      · obtain ⟨ti, hgd, hsti⟩ := hidx i h1
        have hgd' : (outs' ++ [ScopeChain.mk final, ScopeChain.empty]).getD i ScopeChain.empty =
            ⟨ti⟩ := by
          rw [getD_append_left _ (by rw [hlen']; exact h1)]
          exact hgd
        constructor
        · rw [hgd']
          show ti._len = c.scopetree._len - i
          rw [hsti.2.2.1, hlen]
          simp only [List.length_drop]
          omega
        · have hcast : (c.scopetree._len : Int) - i = ((c.scopetree._len - i : Nat) : Int) := by
            rw [hlen]
            omega
          rw [hcast]
          obtain ⟨d, hds, hstd⟩ := slice_state hst (c.scopetree._len - i)
            (by rw [hlen]; omega) (by rw [hlen]; omega)
          have hdrop : pre.length + 1 - (c.scopetree._len - i) = i := by
            rw [hlen]
            omega
          rw [hdrop] at hstd
          refine ⟨d, hds, ?_⟩
          rw [hgd']
          exact beq_of_states hsti hstd
      · by_cases h2 : i = pre.length
        · subst h2
          have hgd' : (outs' ++ [ScopeChain.mk final, ScopeChain.empty]).getD pre.length
              ScopeChain.empty = ScopeChain.mk final := by
            rw [getD_append_right _ (by rw [hlen']), hlen']
            simp
          constructor
          · rw [hgd']
            show final._len = c.scopetree._len - pre.length
            rw [hfinlen, hlen]
            omega
          · have hcast : (c.scopetree._len : Int) - pre.length = ((1 : Nat) : Int) := by
              rw [hlen]
              omega
            rw [hcast]
            obtain ⟨d, hds, hstd⟩ := slice_state hst 1 (by omega) (by omega)
            have hdrop : pre.drop (pre.length + 1 - 1) = [] := by
              simp
            rw [hdrop] at hstd
            refine ⟨d, hds, ?_⟩
            rw [hgd']
            exact beq_of_states hfin hstd
        · have h3 : i = pre.length + 1 := by
            rw [hlen] at hi
            omega
          subst h3
          have hgd' : (outs' ++ [ScopeChain.mk final, ScopeChain.empty]).getD (pre.length + 1)
              ScopeChain.empty = ScopeChain.empty := by
            rw [getD_append_right _ (by rw [hlen']; omega), hlen']
            have hone : pre.length + 1 - pre.length = 1 := by omega
            rw [hone]
            rfl
          constructor
          · rw [hgd']
            show ScopeTree.empty._len = c.scopetree._len - (pre.length + 1)
            have h0 : ScopeTree.empty._len = 0 := rfl
            rw [h0, hlen]
            omega
          · have hcast : (c.scopetree._len : Int) - ((pre.length + 1 : Nat) : Int) = 0 := by
              rw [hlen]
              omega
            rw [hcast]
            refine ⟨ScopeChain.empty, ?_, ?_⟩
            · have hids : sliceIndices (some 0) (some 0) none c.scopetree._len =
                  .ok (0, 0, 1) :=
                sliceIndices_inrange (by omega) (by omega) (by omega) (by omega)
              rw [getSlice_ok_indices hids]
              unfold ScopeTree.getSlicePost
              rw [if_neg (by simp), if_pos rfl]
            · rw [hgd']
              decide
    · rw [hlen, getD_append_right _ (by rw [hlen']; omega), hlen']
      have hone : pre.length + 1 - pre.length = 1 := by omega
      rw [hone]
      rfl

/-- C7 witness: the iterator on the concrete two-label chain `cxFresh`. -/
theorem lessQualIterWitness :
    ∃ outs, cxFresh.less_qual_iter = .ok outs ∧
      outs.length = cxFresh.scopetree._len + 1 ∧
      (∀ i, i ≤ cxFresh.scopetree._len →
        (outs.getD i ScopeChain.empty).scopetree._len = cxFresh.scopetree._len - i ∧
        ∃ d, cxFresh.scopetree.getSlice (some 0) (some ((cxFresh.scopetree._len : Int) - i))
          none = .ok d ∧
          ScopeChain.beq (outs.getD i ScopeChain.empty) d = true) ∧
      outs.getD cxFresh.scopetree._len ScopeChain.empty = ScopeChain.empty :=
  lessQualIterSpec cxFresh cxFresh_inv (by decide) (fun _ => by decide)
